import Mathlib

/-!
# Verification of the calculator-web expression engine specification

This file gives a shallow embedding of the computational core of the
calculator-web repository (src/utils.js, src/memory.js, the history manager and
the `evaluateExpression` method of the main calculator class) and proves or
refutes the frozen claims about it.

Modelling conventions:

* JavaScript numbers are modelled as exact rationals (`ℚ`) extended with the
  special values `NaN`, `Infinity` and `-Infinity` (`JSVal`).  IEEE-754
  rounding and overflow of finite operations are not modelled; every concrete
  input appearing in a theorem below takes values on which the exact and the
  float64 semantics coincide.  The float64 value `-0` is identified with `0`.
* The dynamic evaluation `new Function('return ' + e)()` used by `safeEval`
  is modelled by a tokenizer and evaluator for the JavaScript expression
  grammar restricted to the character set that `safeEval` admits
  (digits, `+ - * /`, `.`, parentheses and ASCII whitespace).  The lexer
  recognises `++`, `--` and `**` as single tokens exactly as JavaScript does;
  `++` and `--` make the parse fail (as they do in JavaScript when applied to
  literals), and the ES2016 `**` operator is outside the modelled fragment
  (calculator-generated input never contains adjacent asterisks).  Legacy
  octal literals and automatic semicolon insertion are not modelled; no claim
  depends on them.
* JavaScript string primitives (`trim`, `replace` of a single character,
  `includes`, the two regex rewrites of `evaluateExpression`, `toFixed`,
  `parseFloat`, `Number.prototype.toString`, `toExponential`) are modelled by
  the explicit character-list functions below, faithful on the inputs they
  receive in this development (ASCII whitespace only).

All recursive definitions are structural so that every definition evaluates
inside the kernel (`decide`).  Rational arithmetic goes through the
kernel-computable constructor `mkQ` because the arithmetic of `ℚ` itself does
not reduce in the kernel.
-/

/- ### Kernel-computable rational arithmetic -/

/-- Kernel-computable constructor of the rational `n / d` (`0` when `d = 0`,
as in Mathlib). -/
def mkQ (n : Int) (d : Nat) : ℚ :=
  if hd : d = 0 then 0
  else
    Rat.mk'
      (if n < 0 then -((n.natAbs / Nat.gcd n.natAbs d : Nat) : Int)
        else ((n.natAbs / Nat.gcd n.natAbs d : Nat) : Int))
      (d / Nat.gcd n.natAbs d)
      (by
        have hgpos : 0 < Nat.gcd n.natAbs d :=
          Nat.gcd_pos_of_pos_right _ (Nat.pos_of_ne_zero hd)
        have hdvd : Nat.gcd n.natAbs d ∣ d := Nat.gcd_dvd_right _ _
        have := Nat.div_pos (Nat.le_of_dvd (Nat.pos_of_ne_zero hd) hdvd) hgpos
        omega)
      (by
        have hgpos : 0 < Nat.gcd n.natAbs d :=
          Nat.gcd_pos_of_pos_right _ (Nat.pos_of_ne_zero hd)
        by_cases hn : n < 0
        · rw [if_pos hn, Int.natAbs_neg, Int.natAbs_ofNat]
          exact Nat.coprime_div_gcd_div_gcd hgpos
        · rw [if_neg hn, Int.natAbs_ofNat]
          exact Nat.coprime_div_gcd_div_gcd hgpos)

/-- Kernel-computable addition on `ℚ`. -/
def qAdd (a b : ℚ) : ℚ := mkQ (a.num * b.den + b.num * a.den) (a.den * b.den)

/-- Kernel-computable subtraction on `ℚ`. -/
def qSub (a b : ℚ) : ℚ := mkQ (a.num * b.den - b.num * a.den) (a.den * b.den)

/-- Kernel-computable multiplication on `ℚ`. -/
def qMul (a b : ℚ) : ℚ := mkQ (a.num * b.num) (a.den * b.den)

/-- Kernel-computable negation on `ℚ`. -/
def qNeg (a : ℚ) : ℚ := mkQ (-a.num) a.den

/-- Kernel-computable division on `ℚ` (`0` when `b = 0`, as in Mathlib). -/
def qDiv (a b : ℚ) : ℚ :=
  if b.num < 0 then mkQ (-(a.num * b.den)) (a.den * b.num.natAbs)
  else mkQ (a.num * b.den) (a.den * b.num.natAbs)

/-- Kernel-computable absolute value on `ℚ`. -/
def qAbs (a : ℚ) : ℚ := if a < 0 then qNeg a else a

/- ### JavaScript number values -/

/-- A JavaScript number: an exact rational, or one of the non-finite values. -/
inductive JSVal where
  | finite (q : ℚ)
  | nan
  | inf
  | negInf
deriving DecidableEq

/-- Model of the JavaScript isFinite test. -/
def JSVal.isFinite : JSVal → Bool
  | .finite _ => true
  | _ => false

/-- Model of the JavaScript isNaN test. -/
def JSVal.isNaNv : JSVal → Bool
  | .nan => true
  | _ => false

/-- JavaScript unary minus on numbers. -/
def jsNeg : JSVal → JSVal
  | .finite q => .finite (qNeg q)
  | .nan => .nan
  | .inf => .negInf
  | .negInf => .inf

/-- JavaScript addition on numbers (exact on finite values). -/
def jsAdd : JSVal → JSVal → JSVal
  | .finite a, .finite b => .finite (qAdd a b)
  | .nan, _ => .nan
  | _, .nan => .nan
  | .inf, .negInf => .nan
  | .negInf, .inf => .nan
  | .inf, _ => .inf
  | _, .inf => .inf
  | .negInf, _ => .negInf
  | _, .negInf => .negInf

/-- JavaScript subtraction on numbers (exact on finite values). -/
def jsSub : JSVal → JSVal → JSVal
  | .finite a, .finite b => .finite (qSub a b)
  | .nan, _ => .nan
  | _, .nan => .nan
  | .inf, .inf => .nan
  | .negInf, .negInf => .nan
  | .inf, _ => .inf
  | .negInf, _ => .negInf
  | _, .inf => .negInf
  | _, .negInf => .inf

/-- JavaScript multiplication on numbers (exact on finite values). -/
def jsMul : JSVal → JSVal → JSVal
  | .finite a, .finite b => .finite (qMul a b)
  | .nan, _ => .nan
  | _, .nan => .nan
  | .inf, .inf => .inf
  | .inf, .negInf => .negInf
  | .negInf, .inf => .negInf
  | .negInf, .negInf => .inf
  | .inf, .finite b => if b = 0 then .nan else if 0 < b then .inf else .negInf
  | .finite a, .inf => if a = 0 then .nan else if 0 < a then .inf else .negInf
  | .negInf, .finite b => if b = 0 then .nan else if 0 < b then .negInf else .inf
  | .finite a, .negInf => if a = 0 then .nan else if 0 < a then .negInf else .inf

/-- JavaScript division on numbers (exact on finite values; division of a
nonzero finite value by `0` gives a signed infinity, `0 / 0` gives `NaN`). -/
def jsDiv : JSVal → JSVal → JSVal
  | .finite a, .finite b =>
      if b = 0 then
        if a = 0 then .nan else if 0 < a then .inf else .negInf
      else .finite (qDiv a b)
  | .nan, _ => .nan
  | _, .nan => .nan
  | .inf, .inf => .nan
  | .inf, .negInf => .nan
  | .negInf, .inf => .nan
  | .negInf, .negInf => .nan
  | .inf, .finite b => if 0 ≤ b then .inf else .negInf
  | .negInf, .finite b => if 0 ≤ b then .negInf else .inf
  | .finite _, .inf => .finite 0
  | .finite _, .negInf => .finite 0

/- ### Error kinds -/

/-- The error taxonomy of the calculator, one constructor per entry of
ERROR_MESSAGES in src/utils.js. -/
inductive CalcError where
  | divisionByZero
  | mathError
  | overflowError
  | invalidInput
  | domainError
  | memoryError
  | syntaxError
deriving DecidableEq

deriving instance DecidableEq for Except

/-- Message text of each error, from ERROR_MESSAGES in src/utils.js. -/
def CalcError.message : CalcError → String
  | .divisionByZero => "Error: Division by zero"
  | .mathError => "Math Error"
  | .overflowError => "Overflow Error"
  | .invalidInput => "Invalid Input"
  | .domainError => "Domain Error"
  | .memoryError => "Memory Error"
  | .syntaxError => "Syntax Error"

/- ### Character and string helpers -/

/-- ASCII decimal digit test (model of the regex class [0-9]). -/
def isDig (c : Char) : Bool := decide ('0' ≤ c) && decide (c ≤ '9')

/-- Numeric value of a digit character. -/
def dval (c : Char) : ℕ := c.toNat - 48

/-- ASCII whitespace test (the whitespace characters admitted by the
character-class regex of safeEval and by the model of trim). -/
def isWsChar (c : Char) : Bool := c = ' ' || c = '\t' || c = '\n' || c = '\r'

/-- Model of String.prototype.trim (ASCII whitespace). -/
def jsTrim (s : String) : String :=
  ⟨((s.data.dropWhile isWsChar).reverse.dropWhile isWsChar).reverse⟩

/-- Model of str.replace(/c/g, r) for a single character `c`. -/
def replCh (c : Char) (r : List Char) : List Char → List Char
  | [] => []
  | d :: t => (if d = c then r else [d]) ++ replCh c r t

/-- Test whether `p` is an initial segment of `l`. -/
def startsWithL : List Char → List Char → Bool
  | [], _ => true
  | _ :: _, [] => false
  | p :: ps, x :: xs => p = x && startsWithL ps xs

/-- Model of String.prototype.includes for a pattern `p`. -/
def containsSub (p : List Char) : List Char → Bool
  | [] => startsWithL p []
  | c :: t => startsWithL p (c :: t) || containsSub p (c :: t).tail

/-- Little-endian decimal digits of `n` (empty for `0`), with fuel. -/
def digitsF : ℕ → ℕ → List ℕ
  | 0, _ => []
  | f + 1, n => if n = 0 then [] else n % 10 :: digitsF f (n / 10)

/-- Decimal digit characters of `n`, most significant first. -/
def natChars (n : ℕ) : List Char :=
  if n = 0 then ['0'] else ((digitsF (n + 1) n).map (fun d => Char.ofNat (48 + d))).reverse

/-- Number of decimal digits of `n` (one digit for `0`). -/
def numDigits (n : ℕ) : ℕ := (natChars n).length

/-- Value of a big-endian list of digit characters. -/
def charsToNat (l : List Char) : ℕ := l.foldl (fun a c => 10 * a + dval c) 0

/-- Left-pad a digit string with zeros to length `k`. -/
def padZeros (k : ℕ) (l : List Char) : List Char := List.replicate (k - l.length) '0' ++ l

/-- Drop trailing zero characters. -/
def dropTrailZeros (l : List Char) : List Char :=
  (l.reverse.dropWhile (fun c => c = '0')).reverse

/- ### Number formatting (model of formatNumber and the platform primitives it uses) -/

/-- Magnitude of `q` scaled by `10 ^ f` and rounded half away from zero, as a
natural number (the rounding used by toFixed and toExponential). -/
def roundScaledAbs (q : ℚ) (f : ℕ) : ℕ :=
  (2 * (q.num.natAbs * 10 ^ f) + q.den) / (2 * q.den)

/-- Model of Number.prototype.toFixed(f) for magnitudes below 1e21. -/
def jsToFixed (f : ℕ) (q : ℚ) : String :=
  let n := roundScaledAbs q f
  ⟨(if q < 0 then ['-'] else []) ++ natChars (n / 10 ^ f)
    ++ (if f = 0 then [] else '.' :: padZeros f (natChars (n % 10 ^ f)))⟩

/-- Exponent `e` with `10 ^ e ≤ |q| < 10 ^ (e + 1)`, for `q ≠ 0`. -/
def qExponent (q : ℚ) : Int :=
  ((numDigits (q.num.natAbs * 10 ^ (numDigits q.den + 1) / q.den) : Int) - 1)
    - (numDigits q.den + 1)

/-- Model of Number.prototype.toExponential(f). -/
def qToExponential (f : ℕ) (q : ℚ) : String :=
  if q = 0 then
    ⟨'0' :: (if f = 0 then [] else '.' :: List.replicate f '0') ++ ['e', '+', '0']⟩
  else
    let e := qExponent q
    let diff := (f : Int) - e
    let m0 := if 0 ≤ diff then roundScaledAbs q diff.toNat
      else roundScaledAbs (mkQ q.num (q.den * 10 ^ (-diff).toNat)) 0
    let m := if m0 = 10 ^ (f + 1) then 10 ^ f else m0
    let e' := if m0 = 10 ^ (f + 1) then e + 1 else e
    let ds := natChars m
    ⟨(if q < 0 then ['-'] else []) ++ ds.take 1
      ++ (if f = 0 then [] else '.' :: ds.drop 1)
      ++ 'e' :: (if 0 ≤ e' then '+' :: natChars e'.toNat else '-' :: natChars (-e').toNat)⟩

/-- Model of parseFloat restricted to complete numeric strings (the only
shapes it receives in this development); `none` where JavaScript would scan a
strict prefix or produce NaN. -/
def parseExpTail (base : ℚ) (t : List Char) : Option ℚ :=
  let t1 := match t with
    | '-' :: u => u
    | '+' :: u => u
    | u => u
  let neg : Bool := match t with
    | '-' :: _ => true
    | _ => false
  let ed := t1.takeWhile isDig
  if ed = [] ∨ t1.dropWhile isDig ≠ [] then none
  else some (if neg then qMul base (mkQ 1 (10 ^ charsToNat ed))
    else qMul base (mkQ (10 ^ charsToNat ed) 1))

/-- Mantissa-and-exponent part of the parseFloat model. -/
def parseAfterSign (sgn : Int) (l1 : List Char) : Option ℚ :=
  let ip := l1.takeWhile isDig
  let l2 := l1.dropWhile isDig
  let cont := fun (fp : List Char) (rest : List Char) =>
    let base : ℚ := mkQ (sgn * ((charsToNat ip * 10 ^ fp.length + charsToNat fp : ℕ) : Int))
      (10 ^ fp.length)
    match rest with
    | [] => some base
    | 'e' :: t => parseExpTail base t
    | 'E' :: t => parseExpTail base t
    | _ => none
  match l2 with
  | '.' :: t =>
      if ip = [] ∧ t.takeWhile isDig = [] then none
      else cont (t.takeWhile isDig) (t.dropWhile isDig)
  | _ => if ip = [] then none else cont [] l2

/-- Model of parseFloat on complete numeric strings. -/
def qParseFloat (s : String) : Option ℚ :=
  match s.data with
  | '-' :: t => parseAfterSign (-1) t
  | '+' :: t => parseAfterSign 1 t
  | t => parseAfterSign 1 t

/-- Model of Number.prototype.toString for values whose denominator divides
`10 ^ 12` (every value it receives in this development): minimal decimal
digits, no exponent form. -/
def jsNumToString (q : ℚ) : String :=
  if q = 0 then "0"
  else
    let scaled := q.num.natAbs * (10 ^ 12 / q.den)
    let fr := dropTrailZeros (padZeros 12 (natChars (scaled % 10 ^ 12)))
    ⟨(if q < 0 then ['-'] else []) ++ natChars (scaled / 10 ^ 12)
      ++ (if fr = [] then [] else '.' :: fr)⟩

/-- Model of str.replace(/\.?0+$/, ''): if the string ends in a zero, drop the
trailing zeros and then at most one trailing dot. -/
def stripDotZeros (l : List Char) : List Char :=
  match l.reverse with
  | '0' :: _ =>
      match l.reverse.dropWhile (fun c => c = '0') with
      | '.' :: r => r.reverse
      | r => r.reverse
  | _ => l

/-- Model of formatNumber from src/utils.js. -/
def formatNumber (value : JSVal) (maxDecimals : ℕ := 12) : String :=
  match value with
  | .nan => "Math Error"
  | .inf => "∞"
  | .negInf => "-∞"
  | .finite q =>
    if qAbs q > (10 : ℚ) ^ 15 ∨ (qAbs q < mkQ 1 (10 ^ 6) ∧ q ≠ 0) then
      qToExponential 6 q
    else
      let rounded := (qParseFloat (jsToFixed maxDecimals q)).getD 0
      let str := jsNumToString rounded
      if str.data.contains '.' then ⟨stripDotZeros str.data⟩ else str

/- ### Model of validateExpression from src/utils.js -/

/-- Parenthesis-balance scan of validateExpression: the running count must
never go negative and must end at zero. -/
def parenScan : Int → List Char → Bool
  | n, [] => decide (n = 0)
  | n, c :: t =>
      let n' := if c = '(' then n + 1 else if c = ')' then n - 1 else n
      if n' < 0 then false else parenScan n' t

/-- The operator character class [+\-×÷] of validateExpression (ASCII plus,
ASCII hyphen-minus, multiplication sign, division sign). -/
def isOpCh (c : Char) : Bool := c = '+' || c = '-' || c = '×' || c = '÷'

/-- Presence of the pattern [+\-×÷]{2,}: two adjacent operator characters. -/
def hasConsecOps : List Char → Bool
  | c :: d :: t => (isOpCh c && isOpCh d) || hasConsecOps (d :: t)
  | _ => false

/-- Matches the regex \.[0-9]*\. at the start of the remainder after a dot. -/
def dotThenDot (t : List Char) : Bool :=
  match t.dropWhile isDig with
  | '.' :: _ => true
  | _ => false

/-- Presence of the pattern \.[0-9]*\. anywhere in the string. -/
def hasMultiDec : List Char → Bool
  | [] => false
  | '.' :: t => dotThenDot t || hasMultiDec t
  | _ :: t => hasMultiDec t

/-- Presence of the pattern ^[×÷]. -/
def startsMulDiv : List Char → Bool
  | c :: _ => c = '×' || c = '÷'
  | [] => false

/-- Presence of the pattern [+\-×÷]$. -/
def endsOp (l : List Char) : Bool :=
  match l.getLast? with
  | some c => isOpCh c
  | none => false

/-- Model of validateExpression from src/utils.js. -/
def validateExpression (expression : String) : Bool :=
  parenScan 0 expression.data
    && !(hasConsecOps expression.data || hasMultiDec expression.data
      || startsMulDiv expression.data || endsOp expression.data)

/- ### Model of factorial from src/utils.js -/

/-- Product computed by the factorial loop (exact; the source computes in
float64, which is exact on every value the loop can return without the
overflow guard being hit being relevant to the claims). -/
def facNat : ℕ → ℕ
  | 0 => 1
  | n + 1 => (n + 1) * facNat n

/-- Model of factorial from src/utils.js.  The argument is a JavaScript
number; `Number.isInteger` is denominator-one on exact rationals. -/
def factorial (n : ℚ) : Except CalcError ℚ :=
  if ¬n.den = 1 ∨ n < 0 then .error .invalidInput
  else if n > 170 then .error .overflowError
  else .ok ((facNat n.num.toNat : ℕ) : ℚ)

/- ### Model of the memory register from src/memory.js -/

/-- The state of MemoryManager: the stored value and the active flag. -/
structure MemoryState where
  memoryValue : JSVal
  isMemoryActive : Bool
deriving DecidableEq

/-- Model of MemoryManager.memoryStore: a non-finite value raises (as
MEMORY_ERROR after the catch), otherwise the value is stored and the register
becomes active. -/
def memoryStore (value : JSVal) (st : MemoryState) : Except CalcError MemoryState :=
  if value.isFinite then .ok ⟨value, true⟩ else .error .memoryError

/-- Model of MemoryManager.memoryRecall: `0` when inactive, else the stored
value; the state is not changed and no error is raised. -/
def memoryRecall (st : MemoryState) : JSVal :=
  if st.isMemoryActive then st.memoryValue else .finite 0

/-- Model of MemoryManager.memoryClear. -/
def memoryClear (_st : MemoryState) : MemoryState := ⟨.finite 0, false⟩

/-- Model of MemoryManager.memoryAdd. -/
def memoryAdd (value : JSVal) (st : MemoryState) : Except CalcError MemoryState :=
  if value.isFinite then .ok ⟨jsAdd st.memoryValue value, true⟩ else .error .memoryError

/-- Model of MemoryManager.memorySubtract. -/
def memorySubtract (value : JSVal) (st : MemoryState) : Except CalcError MemoryState :=
  if value.isFinite then .ok ⟨jsSub st.memoryValue value, true⟩ else .error .memoryError

/-- Model of MemoryManager.isMemorySet. -/
def isMemorySet (st : MemoryState) : Bool := st.isMemoryActive

/- ### Model of the history manager (src/unnamed/part_005) -/

/-- A history entry as created by addToHistory. -/
structure HistoryEntry where
  id : ℕ
  expression : String
  result : JSVal
  formattedResult : String
  timestamp : String
deriving DecidableEq

/-- The state of HistoryManager: the capacity and the entries, oldest first. -/
structure HistoryState where
  maxHistory : ℕ
  history : List HistoryEntry
deriving DecidableEq

/-- The state of a freshly constructed HistoryManager (capacity 10, no
stored entries). -/
def initialHistory : HistoryState := ⟨10, []⟩

/-- Model of HistoryManager.addToHistory.  The entry identifier and the
timestamp, produced by Date in the source, are passed as parameters.  The
expression is trimmed, the result formatted, the item appended, and if the
length then exceeds the capacity the oldest entry (index 0) is removed. -/
def addToHistory (id : ℕ) (ts : String) (expression : String) (result : JSVal)
    (st : HistoryState) : HistoryState :=
  let item : HistoryEntry := ⟨id, jsTrim expression, result, formatNumber result, ts⟩
  let h := st.history ++ [item]
  ⟨st.maxHistory, if h.length > st.maxHistory then h.tail else h⟩

/-- Model of HistoryManager.getHistoryItem: the entry at `index` (a deep copy
in the source, hence a plain value here), or `none` out of range. -/
def getHistoryItem (index : ℕ) (st : HistoryState) : Option HistoryEntry :=
  st.history.get? index

/-- A request to addToHistory: identifier, timestamp, expression, result. -/
structure AddReq where
  id : ℕ
  ts : String
  expression : String
  result : JSVal

/-- Sequential application of addToHistory for a list of requests. -/
def runAdds (l : List AddReq) (st : HistoryState) : HistoryState :=
  l.foldl (fun s r => addToHistory r.id r.ts r.expression r.result s) st

/- ### Model of safeEval from src/utils.js -/

/-- The character class of safeEval's validation regex
^[0-9+\-*/.() \t\n\r]+$. -/
def allowedChar (c : Char) : Bool :=
  isDig c || c = '+' || c = '-' || c = '*' || c = '/' || c = '.' || c = '('
    || c = ')' || c = ' ' || c = '\t' || c = '\n' || c = '\r'

/-- The symbol substitutions of safeEval, in source order: × ÷ − to ASCII
operators, then π and e to the decimal text of Math.PI and Math.E. -/
def safeEvalSubst (l : List Char) : List Char :=
  replCh 'e' "2.718281828459045".data
    (replCh 'π' "3.141592653589793".data
      (replCh '−' ['-'] (replCh '÷' ['/'] (replCh '×' ['*'] l))))

/-- Tokens of the JavaScript expression fragment admitted by safeEval. -/
inductive JTok where
  | num (q : ℚ)
  | tadd
  | tsub
  | tmul
  | tdiv
  | tlp
  | trp
  | tincr
  | tdecr
  | tpow
deriving DecidableEq

/-- Value of a numeric literal with integer digits `ip` and fraction digits
`fp`. -/
def numLit (ip fp : List Char) : ℚ :=
  mkQ ((charsToNat ip * 10 ^ fp.length + charsToNat fp : ℕ) : Int) (10 ^ fp.length)

/-- Lexer for the JavaScript expression fragment: skips ASCII whitespace,
recognises ++ -- ** as single tokens as the JavaScript lexer does, and
numeric literals of the forms digits, digits., digits.digits and .digits. -/
def jsTokenize : ℕ → List Char → Option (List JTok)
  | 0, _ => none
  | _ + 1, [] => some []
  | f + 1, c :: t =>
    if isWsChar c then jsTokenize f t
    else if c = '+' then
      match t with
      | '+' :: u => (jsTokenize f u).map (fun ts => .tincr :: ts)
      | _ => (jsTokenize f t).map (fun ts => .tadd :: ts)
    else if c = '-' then
      match t with
      | '-' :: u => (jsTokenize f u).map (fun ts => .tdecr :: ts)
      | _ => (jsTokenize f t).map (fun ts => .tsub :: ts)
    else if c = '*' then
      match t with
      | '*' :: u => (jsTokenize f u).map (fun ts => .tpow :: ts)
      | _ => (jsTokenize f t).map (fun ts => .tmul :: ts)
    else if c = '/' then (jsTokenize f t).map (fun ts => .tdiv :: ts)
    else if c = '(' then (jsTokenize f t).map (fun ts => .tlp :: ts)
    else if c = ')' then (jsTokenize f t).map (fun ts => .trp :: ts)
    else if isDig c then
      match (c :: t).dropWhile isDig with
      | '.' :: u =>
          (jsTokenize f (u.dropWhile isDig)).map
            (fun ts => .num (numLit ((c :: t).takeWhile isDig) (u.takeWhile isDig)) :: ts)
      | r1 =>
          (jsTokenize f r1).map (fun ts => .num (numLit ((c :: t).takeWhile isDig) []) :: ts)
    else if c = '.' then
      match t.takeWhile isDig with
      | [] => none
      | fp => (jsTokenize f (t.dropWhile isDig)).map (fun ts => .num (numLit [] fp) :: ts)
    else none

/-- States of the expression evaluator: the four grammar levels
(AdditiveExpression, MultiplicativeExpression, UnaryExpression,
PrimaryExpression) plus the left-associative continuation states carrying the
accumulated value. -/
inductive PState where
  | prim
  | unary
  | mull
  | addl
  | mulTail (acc : JSVal)
  | addTail (acc : JSVal)

/-- Recursive-descent evaluator for the JavaScript expression grammar over
the tokens above, with fuel.  Together with the lexer this models evaluating
`new Function('return ' + e)()`: conventional precedence (multiplicative over
additive), left associativity, prefix unary plus and minus, parentheses.
The tokens ++ -- ** make the parse fail (for ++ and -- this matches
JavaScript, which rejects update expressions on literals; ** is outside the
modelled fragment, see the module comment). -/
def parseE : ℕ → PState → List JTok → Option (JSVal × List JTok)
  | 0, _, _ => none
  | f + 1, .prim, ts =>
    match ts with
    | .num q :: r => some (.finite q, r)
    | .tlp :: r =>
        match parseE f .addl r with
        | some (v, .trp :: r2) => some (v, r2)
        | _ => none
    | _ => none
  | f + 1, .unary, ts =>
    match ts with
    | .tadd :: r => parseE f .unary r
    | .tsub :: r =>
        match parseE f .unary r with
        | some (v, r2) => some (jsNeg v, r2)
        | none => none
    | _ => parseE f .prim ts
  | f + 1, .mull, ts =>
    match parseE f .unary ts with
    | some (v, r) => parseE f (.mulTail v) r
    | none => none
  | f + 1, .mulTail a, ts =>
    match ts with
    | .tmul :: r =>
        match parseE f .unary r with
        | some (v, r2) => parseE f (.mulTail (jsMul a v)) r2
        | none => none
    | .tdiv :: r =>
        match parseE f .unary r with
        | some (v, r2) => parseE f (.mulTail (jsDiv a v)) r2
        | none => none
    | .tpow :: _ => none
    | .tincr :: _ => none
    | .tdecr :: _ => none
    | _ => some (a, ts)
  | f + 1, .addl, ts =>
    match parseE f .mull ts with
    | some (v, r) => parseE f (.addTail v) r
    | none => none
  | f + 1, .addTail a, ts =>
    match ts with
    | .tadd :: r =>
        match parseE f .mull r with
        | some (v, r2) => parseE f (.addTail (jsAdd a v)) r2
        | none => none
    | .tsub :: r =>
        match parseE f .mull r with
        | some (v, r2) => parseE f (.addTail (jsSub a v)) r2
        | none => none
    | _ => some (a, ts)

/-- Model of `new Function('return ' + l)()` on the admitted character set:
tokenize, evaluate a full additive expression, require all input consumed;
`none` models the JavaScript call throwing (SyntaxError, TypeError, ...). -/
def jsEval (l : List Char) : Option JSVal :=
  match jsTokenize (l.length + 1) l with
  | none => none
  | some ts =>
      match parseE (8 * ts.length + 8) .addl ts with
      | some (v, []) => some v
      | _ => none

/-- Model of safeEval from src/utils.js: character-class validation (a
failure throws INVALID_INPUT), symbol substitution, dynamic evaluation (any
evaluation error is rethrown as SYNTAX_ERROR by the catch block), and the
non-finite filter (NaN to MATH_ERROR, signed infinity to OVERFLOW_ERROR). -/
def safeEval (expression : String) : Except CalcError JSVal :=
  if expression.data ≠ [] ∧ expression.data.all allowedChar then
    match jsEval (safeEvalSubst expression.data) with
    | none => .error .syntaxError
    | some result =>
        if result.isFinite then .ok result
        else if result.isNaNv then .error .mathError
        else .error .overflowError
  else .error .invalidInput

/- ### Model of evaluateExpression from the main calculator class (src/unnamed/part_003) -/

/-- Match the regex \d+(?:\.\d+)? at the head of `l`: the matched characters
and the rest (the optional fraction group is dropped when no digit follows
the dot, as regex backtracking does). -/
def matchNumLit (l : List Char) : Option (List Char × List Char) :=
  if l.takeWhile isDig = [] then none
  else
    match l.dropWhile isDig with
    | '.' :: u =>
        if u.takeWhile isDig = [] then some (l.takeWhile isDig, l.dropWhile isDig)
        else some (l.takeWhile isDig ++ '.' :: u.takeWhile isDig, u.dropWhile isDig)
    | r1 => some (l.takeWhile isDig, r1)

/-- One attempted match of the percent regex (\d+(?:\.\d+)?)\s*% at the head
of `l`: the captured numeral and the rest after the percent sign. -/
def tryPctMatch (l : List Char) : Option (List Char × List Char) :=
  match matchNumLit l with
  | none => none
  | some (numc, r1) =>
      match r1.dropWhile isWsChar with
      | '%' :: r2 => some (numc, r2)
      | _ => none

/-- The percent rewrite of evaluateExpression,
replace(/(\d+(?:\.\d+)?)\s*%/g, '($1/100)'): scan left to right, replace
each match and continue after it, advance one character on failure. -/
def pctScan : ℕ → List Char → List Char
  | 0, l => l
  | _ + 1, [] => []
  | f + 1, c :: t =>
      match tryPctMatch (c :: t) with
      | some (numc, r2) =>
          '(' :: (numc ++ ('/' :: '1' :: '0' :: '0' :: ')' :: pctScan f r2))
      | none => c :: pctScan f t

/-- One attempted match of the power regex
(\d+(?:\.\d+)?)\s*\^\s*(\d+(?:\.\d+)?) at the head of `l`: base digits,
exponent digits and the rest. -/
def tryPowMatch (l : List Char) : Option (List Char × List Char × List Char) :=
  match matchNumLit l with
  | none => none
  | some (basec, r1) =>
      match r1.dropWhile isWsChar with
      | '^' :: r2 =>
          match matchNumLit (r2.dropWhile isWsChar) with
          | none => none
          | some (expc, r3) => some (basec, expc, r3)
      | _ => none

/-- The power rewrite of evaluateExpression,
replace(/(\d+(?:\.\d+)?)\s*\^\s*(\d+(?:\.\d+)?)/g, 'Math.pow($1, $2)'). -/
def powScan : ℕ → List Char → List Char
  | 0, l => l
  | _ + 1, [] => []
  | f + 1, c :: t =>
      match tryPowMatch (c :: t) with
      | some (basec, expc, r3) =>
          "Math.pow(".data ++ basec ++ ',' :: ' ' :: (expc ++ ')' :: powScan f r3)
      | none => c :: powScan f t

/-- The operator normalisation step of evaluateExpression, in source order:
× to *, ÷ to /, − to -. -/
def normOps (l : List Char) : List Char :=
  replCh '−' ['-'] (replCh '÷' ['/'] (replCh '×' ['*'] l))

/-- The full textual preprocessing pipeline of evaluateExpression: trim,
power rewrite, percent rewrite, operator normalisation. -/
def preprocess (expression : String) : List Char :=
  let l0 := (jsTrim expression).data
  let l1 := powScan l0.length l0
  let l2 := pctScan l1.length l1
  normOps l2

/-- The error classification of evaluateExpression's catch block: the error
becomes DIVISION_BY_ZERO when its message contains 'Division by zero' or the
processed expression text contains '/0', and MATH_ERROR otherwise. -/
def classifyEvalError (e : List Char) (err : CalcError) : CalcError :=
  if containsSub "Division by zero".data err.message.data || containsSub "/0".data e
  then .divisionByZero else .mathError

/-- Model of evaluateExpression from src/unnamed/part_003: preprocess,
evaluate through safeEval, re-check finiteness (throwing MATH_ERROR or
OVERFLOW_ERROR inside the same try block), and classify any caught error
through `classifyEvalError` over the processed text. -/
def evaluateExpression (expression : String) : Except CalcError JSVal :=
  let e := preprocess expression
  match safeEval ⟨e⟩ with
  | .error err => .error (classifyEvalError e err)
  | .ok result =>
      if result.isFinite then .ok result
      else if result.isNaNv then .error (classifyEvalError e .mathError)
      else .error (classifyEvalError e .overflowError)

/- ### Specification-side definitions -/

/-- Abstract syntax of the well-formed input expressions of claim C3:
decimal literals and the four display operators, with parenthesisation
implicit in the tree structure. -/
inductive AExp where
  | lit (n : ℕ)
  | dec (n : ℕ) (f : ℕ) (k : ℕ)
  | add (a b : AExp)
  | sub (a b : AExp)
  | mul (a b : AExp)
  | div (a b : AExp)

/-- Standard infix denotation of an expression, following the specification:
exact arithmetic with conventional operator meaning, undefined (`none`) as
soon as a division by zero occurs. -/
def denote : AExp → Option ℚ
  | .lit n => some n
  | .dec n f k => some (n + f / 10 ^ k)
  | .add a b =>
      match denote a, denote b with
      | some x, some y => some (x + y)
      | _, _ => none
  | .sub a b =>
      match denote a, denote b with
      | some x, some y => some (x - y)
      | _, _ => none
  | .mul a b =>
      match denote a, denote b with
      | some x, some y => some (x * y)
      | _, _ => none
  | .div a b =>
      match denote a, denote b with
      | some x, some y => if y = 0 then none else some (x / y)
      | _, _ => none

/-- Well-formedness of the literals of an expression: fraction digits fit
the declared width, which is positive. -/
def AExp.wf : AExp → Bool
  | .lit _ => true
  | .dec _ f k => decide (0 < k) && decide (f < 10 ^ k)
  | .add a b => a.wf && b.wf
  | .sub a b => a.wf && b.wf
  | .mul a b => a.wf && b.wf
  | .div a b => a.wf && b.wf

/-- Precedence of the root: literals 3, multiplicative 2, additive 1. -/
def prec : AExp → ℕ
  | .lit _ => 3
  | .dec _ _ _ => 3
  | .mul _ _ => 2
  | .div _ _ => 2
  | .add _ _ => 1
  | .sub _ _ => 1

/-- Wrap in parentheses when `b` holds. -/
def wrapIf (b : Bool) (l : List Char) : List Char := if b then '(' :: (l ++ [')']) else l

/-- Display rendering of an expression with the calculator operators × ÷ −
(Unicode minus), inserting parentheses exactly where precedence requires. -/
def renderC : AExp → List Char
  | .lit n => natChars n
  | .dec n f k => natChars n ++ '.' :: padZeros k (natChars f)
  | .add a b =>
      wrapIf (decide (prec a < 1)) (renderC a) ++ '+' :: wrapIf (decide (prec b < 2)) (renderC b)
  | .sub a b =>
      wrapIf (decide (prec a < 1)) (renderC a) ++ '−' :: wrapIf (decide (prec b < 2)) (renderC b)
  | .mul a b =>
      wrapIf (decide (prec a < 2)) (renderC a) ++ '×' :: wrapIf (decide (prec b < 3)) (renderC b)
  | .div a b =>
      wrapIf (decide (prec a < 2)) (renderC a) ++ '÷' :: wrapIf (decide (prec b < 3)) (renderC b)

/-- Display rendering as a string. -/
def render (e : AExp) : String := ⟨renderC e⟩

/-- The literal division-by-zero pattern of claim C1, read from the
specification: an operand (ending in a digit) followed by a division sign
(/ or ÷) and the digit 0, with no further digit after it. -/
def hasDivZeroPat : List Char → Bool
  | d :: s :: '0' :: rest =>
      (isDig d && (s = '/' || s = '÷')
        && !(match rest with
          | c :: _ => isDig c
          | [] => false))
      || hasDivZeroPat (s :: '0' :: rest)
  | _ :: t => hasDivZeroPat t
  | [] => false

/-- The history entry that addToHistory creates for a request. -/
def mkEntry (r : AddReq) : HistoryEntry :=
  ⟨r.id, jsTrim r.expression, r.result, formatNumber r.result, r.ts⟩

/-- States of the memory register reachable through the public operations
(store, recall, clear, add, subtract) from the initial state of a fresh
MemoryManager with empty storage. -/
inductive MemReach : MemoryState → Prop where
  | init : MemReach ⟨.finite 0, false⟩
  | store {s s2 : MemoryState} {v : JSVal} :
      MemReach s → memoryStore v s = .ok s2 → MemReach s2
  | clear {s : MemoryState} : MemReach s → MemReach (memoryClear s)
  | add {s s2 : MemoryState} {v : JSVal} :
      MemReach s → memoryAdd v s = .ok s2 → MemReach s2
  | sub {s s2 : MemoryState} {v : JSVal} :
      MemReach s → memorySubtract v s = .ok s2 → MemReach s2

/-- The raw result of the dynamic-evaluation step of safeEval (the value of
the Function-constructor call), before the non-finite filter. -/
def rawResult (s : String) : Option JSVal := jsEval (safeEvalSubst s.data)

/-- ASCII rendering of an expression: the image of the display rendering
under the operator normalisation of evaluateExpression. -/
def renderAsc : AExp → List Char
  | .lit n => natChars n
  | .dec n f k => natChars n ++ '.' :: padZeros k (natChars f)
  | .add a b =>
      wrapIf (decide (prec a < 1)) (renderAsc a) ++ '+' :: wrapIf (decide (prec b < 2)) (renderAsc b)
  | .sub a b =>
      wrapIf (decide (prec a < 1)) (renderAsc a) ++ '-' :: wrapIf (decide (prec b < 2)) (renderAsc b)
  | .mul a b =>
      wrapIf (decide (prec a < 2)) (renderAsc a) ++ '*' :: wrapIf (decide (prec b < 3)) (renderAsc b)
  | .div a b =>
      wrapIf (decide (prec a < 2)) (renderAsc a) ++ '/' :: wrapIf (decide (prec b < 3)) (renderAsc b)

/-- Parenthesis wrapping at token level. -/
def wrapT (b : Bool) (l : List JTok) : List JTok := if b then .tlp :: (l ++ [.trp]) else l

/-- Token sequence of an expression, without outer parentheses. -/
def toksOf : AExp → List JTok
  | .lit n => [.num ((n : ℕ) : ℚ)]
  | .dec n f k => [.num (mkQ ((n * 10 ^ k + f : ℕ) : Int) (10 ^ k))]
  | .add a b =>
      wrapT (decide (prec a < 1)) (toksOf a) ++ .tadd :: wrapT (decide (prec b < 2)) (toksOf b)
  | .sub a b =>
      wrapT (decide (prec a < 1)) (toksOf a) ++ .tsub :: wrapT (decide (prec b < 2)) (toksOf b)
  | .mul a b =>
      wrapT (decide (prec a < 2)) (toksOf a) ++ .tmul :: wrapT (decide (prec b < 3)) (toksOf b)
  | .div a b =>
      wrapT (decide (prec a < 2)) (toksOf a) ++ .tdiv :: wrapT (decide (prec b < 3)) (toksOf b)

/-- Token sequence of an expression in a precedence context. -/
def toksW (ctx : ℕ) (e : AExp) : List JTok := wrapT (decide (prec e < ctx)) (toksOf e)

/-- True when the head of the token list does not continue a multiplicative
tail (the stop condition of the mulTail state). -/
def mulStop : List JTok → Bool
  | .tmul :: _ => false
  | .tdiv :: _ => false
  | .tpow :: _ => false
  | .tincr :: _ => false
  | .tdecr :: _ => false
  | _ => true

/-- True when the head of the token list does not continue an additive tail
(the stop condition of the addTail state). -/
def addStop : List JTok → Bool
  | .tadd :: _ => false
  | .tsub :: _ => false
  | _ => true

/-- Tail states of the parser. -/
def isTail : PState → Bool
  | .mulTail _ => true
  | .addTail _ => true
  | _ => false

/-- Rank of a parser state, used in the fuel bound. -/
def pRank : PState → ℕ
  | .prim => 0
  | .unary => 1
  | .mulTail _ => 2
  | .mull => 3
  | .addTail _ => 4
  | .addl => 5

/-- Convergence of the parser: the computation yields `out` at every
sufficiently large fuel. -/
def PConv (st : PState) (ts : List JTok) (out : JSVal × List JTok) : Prop :=
  ∃ n : ℕ, ∀ f : ℕ, n ≤ f → parseE f st ts = some out

/-- Continuations after which a rendered numeral tokenizes standalone: the
next character is neither a digit nor a decimal point. -/
def restOk : List Char → Bool
  | [] => true
  | c :: _ => !(isDig c) && !(c = '.')

/-- ASCII rendering of an expression in context `ctx`, wrapped in
parentheses exactly when the token sequence is (matching toksW). -/
def rendW (ctx : ℕ) (e : AExp) : List Char :=
  wrapIf (decide (prec e < ctx)) (renderAsc e)

/-- Character set of the display rendering: digits, point, the display
operators and parentheses. -/
def dispChar (c : Char) : Bool :=
  isDig c || c = '.' || c = '+' || c = '−' || c = '×' || c = '÷' || c = '(' || c = ')'

/-- Little-endian value of a digit list. -/
def valLE : List ℕ → ℕ
  | [] => 0
  | d :: t => d + 10 * valLE t

/-- The value produced by parsing back toFixed(12): the magnitude rounded
half away from zero at the 12th decimal, with the sign of the input. -/
def round12 (q : ℚ) : ℚ :=
  mkQ ((if q < 0 then -1 else 1) * (roundScaledAbs q 12 : Int)) (10 ^ 12)

/- ## Theorems -/

/- ### Arithmetic lemmas for the kernel-computable rational operations -/

theorem mkQ_eq (n : Int) (d : Nat) : mkQ n d = (n : ℚ) / d := by
  unfold mkQ
  by_cases hd : d = 0
  · simp [hd]
  · rw [dif_neg hd, Rat.mk'_eq_divInt,
      show ((d : ℚ)) = ((d : Int) : ℚ) by push_cast; ring, ← Rat.divInt_eq_div]
    have hgpos : 0 < Nat.gcd n.natAbs d :=
      Nat.gcd_pos_of_pos_right _ (Nat.pos_of_ne_zero hd)
    have hgn : Nat.gcd n.natAbs d ∣ n.natAbs := Nat.gcd_dvd_left _ _
    have hgd : Nat.gcd n.natAbs d ∣ d := Nat.gcd_dvd_right _ _
    have hn' : (if n < 0 then -((n.natAbs / Nat.gcd n.natAbs d : Nat) : Int)
        else ((n.natAbs / Nat.gcd n.natAbs d : Nat) : Int)) * (Nat.gcd n.natAbs d : Int)
        = n := by
      by_cases hn : n < 0
      · rw [if_pos hn, neg_mul, ← Int.natCast_mul, Nat.div_mul_cancel hgn]
        omega
      · rw [if_neg hn, ← Int.natCast_mul, Nat.div_mul_cancel hgn]
        omega
    have hd' : ((d / Nat.gcd n.natAbs d : Nat) : Int) * (Nat.gcd n.natAbs d : Int)
        = (d : Int) := by
      rw [← Int.natCast_mul, Nat.div_mul_cancel hgd]
    conv_rhs => rw [← hn', ← hd']
    exact (Rat.divInt_mul_right (a := (Nat.gcd n.natAbs d : Int))
      (by exact_mod_cast hgpos.ne')).symm

theorem qAdd_eq (a b : ℚ) : qAdd a b = a + b := by
  rw [qAdd, mkQ_eq]
  have ha : ((a.den : ℚ)) ≠ 0 := Nat.cast_ne_zero.mpr a.den_nz
  have hb : ((b.den : ℚ)) ≠ 0 := Nat.cast_ne_zero.mpr b.den_nz
  conv_rhs => rw [← Rat.num_div_den a, ← Rat.num_div_den b]
  rw [div_add_div _ _ ha hb,
    div_eq_div_iff (by push_cast; exact mul_ne_zero ha hb) (mul_ne_zero ha hb)]
  push_cast
  ring

theorem qSub_eq (a b : ℚ) : qSub a b = a - b := by
  rw [qSub, mkQ_eq]
  have ha : ((a.den : ℚ)) ≠ 0 := Nat.cast_ne_zero.mpr a.den_nz
  have hb : ((b.den : ℚ)) ≠ 0 := Nat.cast_ne_zero.mpr b.den_nz
  conv_rhs => rw [← Rat.num_div_den a, ← Rat.num_div_den b]
  rw [div_sub_div _ _ ha hb,
    div_eq_div_iff (by push_cast; exact mul_ne_zero ha hb) (mul_ne_zero ha hb)]
  push_cast
  ring

theorem qMul_eq (a b : ℚ) : qMul a b = a * b := by
  rw [qMul, mkQ_eq]
  have ha : ((a.den : ℚ)) ≠ 0 := Nat.cast_ne_zero.mpr a.den_nz
  have hb : ((b.den : ℚ)) ≠ 0 := Nat.cast_ne_zero.mpr b.den_nz
  conv_rhs => rw [← Rat.num_div_den a, ← Rat.num_div_den b]
  rw [div_mul_div_comm,
    div_eq_div_iff (by push_cast; exact mul_ne_zero ha hb) (mul_ne_zero ha hb)]
  push_cast
  ring

theorem qNeg_eq (a : ℚ) : qNeg a = -a := by
  rw [qNeg, mkQ_eq]
  conv_rhs => rw [← Rat.num_div_den a]
  rw [← neg_div]
  push_cast
  ring

theorem qDiv_eq (a b : ℚ) : qDiv a b = a / b := by
  by_cases hb : b = 0
  · subst hb
    have h0 : (0 : ℚ).num = 0 := rfl
    rw [qDiv, h0]
    norm_num [mkQ_eq]
  · have hbnum : (b.num : ℚ) ≠ 0 := by
      exact_mod_cast Rat.num_ne_zero.mpr hb
    have ha : ((a.den : ℚ)) ≠ 0 := Nat.cast_ne_zero.mpr a.den_nz
    have hbd : ((b.den : ℚ)) ≠ 0 := Nat.cast_ne_zero.mpr b.den_nz
    have hrhs : a / b = (a.num : ℚ) * (b.den : ℚ) / ((a.den : ℚ) * (b.num : ℚ)) := by
      conv_lhs => rw [← Rat.num_div_den a, ← Rat.num_div_den b]
      rw [div_div_eq_mul_div, div_mul_eq_mul_div, div_div]
    rw [qDiv, hrhs]
    by_cases hbn : b.num < 0
    · have habs : ((b.num.natAbs : ℚ)) = -(b.num : ℚ) := by
        rw [Int.cast_natAbs]
        exact_mod_cast abs_of_neg hbn
      rw [if_pos hbn, mkQ_eq]
      push_cast [habs]
      rw [div_eq_div_iff]
      · ring
      · intro hcon
        rcases mul_eq_zero.mp hcon with h1 | h2
        · exact ha h1
        · exact hbnum (by linarith [neg_eq_zero.mp h2])
      · exact mul_ne_zero ha hbnum
    · have habs : ((b.num.natAbs : ℚ)) = (b.num : ℚ) := by
        rw [Int.cast_natAbs]
        exact_mod_cast abs_of_nonneg (not_lt.mp hbn)
      rw [if_neg hbn, mkQ_eq]
      push_cast [habs]
      try rw [div_eq_div_iff (mul_ne_zero ha hbnum) (mul_ne_zero ha hbnum)]
      try ring

theorem qAbs_eq (a : ℚ) : qAbs a = |a| := by
  rw [qAbs]
  by_cases h : a < 0
  · rw [if_pos h, qNeg_eq, abs_of_neg h]
  · rw [if_neg h, abs_of_nonneg (not_lt.mp h)]

/- ### Helper lemmas -/

theorem memReach_inactive_value {st : MemoryState} (h : MemReach st)
    (hin : st.isMemoryActive = false) : st.memoryValue = .finite 0 := by
  induction h with
  | init => rfl
  | store h1 h2 ih =>
      rw [memoryStore] at h2
      split at h2
      · cases h2
        simp at hin
      · cases h2
  | clear h1 ih => rfl
  | add h1 h2 ih =>
      rw [memoryAdd] at h2
      split at h2
      · cases h2
        simp at hin
      · cases h2
  | sub h1 h2 ih =>
      rw [memorySubtract] at h2
      split at h2
      · cases h2
        simp at hin
      · cases h2

theorem replCh_not_mem (c : Char) (r : List Char) :
    ∀ l : List Char, c ∉ l → replCh c r l = l := by
  intro l
  induction l with
  | nil => intro _; rfl
  | cons d t ih =>
      intro h
      have hd : ¬d = c := by
        intro hdc
        exact h (by rw [← hdc]; exact List.mem_cons_self d t)
      rw [replCh, if_neg hd, ih (fun ht => h (List.mem_cons_of_mem d ht))]
      rfl

theorem safeEvalSubst_id {l : List Char} (h : l.all allowedChar = true) :
    safeEvalSubst l = l := by
  have hmem : ∀ c ∈ l, allowedChar c = true := List.all_eq_true.mp h
  have hx : '×' ∉ l := fun hc => absurd (hmem _ hc) (by decide)
  have hd : '÷' ∉ l := fun hc => absurd (hmem _ hc) (by decide)
  have hm : '−' ∉ l := fun hc => absurd (hmem _ hc) (by decide)
  have hp : 'π' ∉ l := fun hc => absurd (hmem _ hc) (by decide)
  have he : 'e' ∉ l := fun hc => absurd (hmem _ hc) (by decide)
  rw [safeEvalSubst, replCh_not_mem _ _ _ hx, replCh_not_mem _ _ _ hd,
    replCh_not_mem _ _ _ hm, replCh_not_mem _ _ _ hp, replCh_not_mem _ _ _ he]

theorem safeEval_error_cases (s : String) (e : CalcError) (h : safeEval s = .error e) :
    e = .invalidInput ∨ e = .syntaxError ∨ e = .mathError ∨ e = .overflowError := by
  simp only [safeEval] at h
  split at h
  · split at h
    · injection h with h1
      exact Or.inr (Or.inl h1.symm)
    · split at h
      · cases h
      · split at h
        · injection h with h1
          exact Or.inr (Or.inr (Or.inl h1.symm))
        · injection h with h1
          exact Or.inr (Or.inr (Or.inr h1.symm))
  · injection h with h1
    exact Or.inl h1.symm

theorem classifyEvalError_eq (l : List Char) (err : CalcError)
    (hne : err ≠ .divisionByZero) :
    classifyEvalError l err
      = if containsSub "/0".data l = true then CalcError.divisionByZero
        else CalcError.mathError := by
  rw [classifyEvalError]
  have hmsg : containsSub "Division by zero".data err.message.data = false := by
    cases err
    case divisionByZero => exact absurd rfl hne
    all_goals decide
  rw [hmsg, Bool.false_or]

theorem evalExpr_error_iff (s : String) (err : CalcError)
    (he : evaluateExpression s = .error err) :
    err = (if containsSub "/0".data (preprocess s) = true
      then CalcError.divisionByZero else CalcError.mathError) := by
  simp only [evaluateExpression] at he
  split at he
  · rename_i e0 heq
    injection he with h1
    have hcases := safeEval_error_cases _ _ heq
    have hne : e0 ≠ .divisionByZero := by
      rcases hcases with h | h | h | h <;> subst h <;> decide
    rw [← h1, classifyEvalError_eq _ _ hne]
  · split at he
    · cases he
    · split at he
      · injection he with h1
        rw [← h1, classifyEvalError_eq _ _ (by decide)]
      · injection he with h1
        rw [← h1, classifyEvalError_eq _ _ (by decide)]

/- ### Claim C5 -/

/-- Claim C5, corrected: for every expression string that ends with one of
the four operator characters of the source's regex class, namely '+', the
ASCII hyphen-minus '-', '×' or '÷', validateExpression returns false.  (The
claim as stated also listed a trailing '^' and the Unicode minus '−', which
the source regex does not reject; see the counterexample.) -/
theorem claimC5 (s : String) (c : Char) (h : s.data.getLast? = some c)
    (hc : isOpCh c = true) : validateExpression s = false := by
  have he : endsOp s.data = true := by
    rw [endsOp, h]
    exact hc
  simp [validateExpression, he]

/-- Counterexample to claim C5 as stated: "5^" ends with the binary operator
'^', yet validateExpression accepts it. -/
theorem claimC5_cex :
    validateExpression "5^" = true ∧ "5^".data.getLast? = some '^' := by
  constructor
  · decide
  · decide

/-- Witness for the corrected claim C5 at the concrete input "5+". -/
theorem claimC5_witness : validateExpression "5+" = false :=
  claimC5 "5+" '+' (by decide) (by decide)

/- ### Claim C6 -/

/-- Claim C6, confirmed: factorial(0) = 1 and factorial(5) = 120; every
negative or non-integer argument signals InvalidInput; every integer
argument greater than 170 signals OverflowError. -/
theorem claimC6 :
    factorial 0 = .ok 1 ∧ factorial 5 = .ok 120
    ∧ (∀ q : ℚ, (¬q.den = 1 ∨ q < 0) → factorial q = .error .invalidInput)
    ∧ (∀ q : ℚ, q.den = 1 → (170 : ℚ) < q → factorial q = .error .overflowError) := by
  refine ⟨by decide, by decide, ?_, ?_⟩
  · intro q h
    rw [factorial, if_pos h]
  · intro q h1 h2
    have hnot : ¬(¬q.den = 1 ∨ q < 0) := by
      push_neg
      exact ⟨h1, by linarith⟩
    rw [factorial, if_neg hnot, if_pos h2]

/-- Witness for claim C6 at the concrete inputs -1, 7/2 and 171. -/
theorem claimC6_witness :
    factorial (-1) = .error .invalidInput
    ∧ factorial (mkQ 7 2) = .error .invalidInput
    ∧ factorial 171 = .error .overflowError :=
  ⟨claimC6.2.2.1 (-1) (Or.inr (by decide)),
   claimC6.2.2.1 (mkQ 7 2) (Or.inl (by decide)),
   claimC6.2.2.2 171 (by decide) (by decide)⟩

/- ### Claim C7 -/

/-- Claim C7, confirmed: the memory round-trip.  store(42) stores 42 and
activates the register from any state; recall returns the stored value when
active and 0 when inactive, without mutating state or raising (it is a total
function of the state); clear resets to value 0, inactive; and add(5) on any
inactive register reachable through the public memory operations activates
it and sets the value to 5. -/
theorem claimC7 :
    (∀ (q : ℚ) (st : MemoryState),
      memoryStore (.finite q) st = .ok ⟨.finite q, true⟩)
    ∧ memoryRecall ⟨.finite 42, true⟩ = .finite 42
    ∧ (∀ st : MemoryState, memoryClear st = ⟨.finite 0, false⟩)
    ∧ memoryRecall ⟨.finite 0, false⟩ = .finite 0
    ∧ isMemorySet ⟨.finite 0, false⟩ = false
    ∧ (∀ st : MemoryState, MemReach st → st.isMemoryActive = false →
        memoryAdd (.finite 5) st = .ok ⟨.finite 5, true⟩)
    ∧ (∀ st : MemoryState, st.isMemoryActive = false → memoryRecall st = .finite 0) := by
  refine ⟨fun q st => rfl, rfl, fun st => rfl, rfl, rfl, ?_, ?_⟩
  · intro st h hin
    have hv := memReach_inactive_value h hin
    rw [memoryAdd]
    rw [if_pos (by decide)]
    rw [hv]
    decide
  · intro st hin
    rw [memoryRecall, if_neg (by rw [hin]; exact Bool.false_ne_true)]

/-- Witness for claim C7: add(5) on the freshly cleared (hence reachable and
inactive) register yields the active register holding 5. -/
theorem claimC7_witness :
    memoryAdd (.finite 5) ⟨.finite 0, false⟩ = .ok ⟨.finite 5, true⟩ := by
  obtain ⟨-, -, -, -, -, h6, -⟩ := claimC7
  exact h6 ⟨.finite 0, false⟩ MemReach.init rfl

/- ### Claim C10 -/

/-- Claim C10, confirmed: safeEval signals InvalidInput for every string
containing a character outside its admitted class (digits, '+', '-', '*',
'/', '.', parentheses, ASCII whitespace); in particular '×', '÷', '−', 'π'
and 'e' are all outside the class, so any input containing them (such as
the scientific-notation literal "1e16") is rejected before the symbol
substitution step, which is the identity on every admitted string. -/
theorem claimC10 :
    (∀ (s : String) (c : Char), c ∈ s.data → allowedChar c = false →
      safeEval s = .error .invalidInput)
    ∧ (∀ s : String, s.data.all allowedChar = true → safeEvalSubst s.data = s.data)
    ∧ allowedChar '×' = false ∧ allowedChar '÷' = false ∧ allowedChar '−' = false
    ∧ allowedChar 'π' = false ∧ allowedChar 'e' = false := by
  refine ⟨?_, ?_, by decide, by decide, by decide, by decide, by decide⟩
  · intro s c hc hbad
    rw [safeEval, if_neg]
    intro hcon
    have := List.all_eq_true.mp hcon.2 c hc
    rw [hbad] at this
    cases this
  · intro s h
    exact safeEvalSubst_id h

/-- Witness for claim C10: "1e16" contains the letter 'e', which is outside
the admitted class, and is rejected with InvalidInput; the substitution step
is the identity on the admitted string "5+5". -/
theorem claimC10_witness :
    safeEval "1e16" = .error .invalidInput
    ∧ safeEvalSubst "5+5".data = "5+5".data :=
  ⟨claimC10.1 "1e16" 'e' (by decide) (by decide),
   claimC10.2.1 "5+5" (by decide)⟩

/- ### Claim C8 -/

/-- Claim C8, corrected: formatNumber renders in scientific notation with 6
fractional digits exactly when the magnitude is strictly greater than 1e15
(not greater-or-equal, as claimed) or strictly between 0 and 1e-6. -/
theorem claimC8 (q : ℚ)
    (h : qAbs q > (10 : ℚ) ^ 15 ∨ (0 < qAbs q ∧ qAbs q < mkQ 1 (10 ^ 6))) :
    formatNumber (.finite q) = qToExponential 6 q := by
  have hcond : qAbs q > (10 : ℚ) ^ 15 ∨ (qAbs q < mkQ 1 (10 ^ 6) ∧ q ≠ 0) := by
    rcases h with h1 | ⟨h2a, h2b⟩
    · exact Or.inl h1
    · refine Or.inr ⟨h2b, ?_⟩
      intro h0
      subst h0
      rw [qAbs_eq, abs_zero] at h2a
      exact lt_irrefl 0 h2a
  rw [formatNumber, if_pos hcond]

/-- Counterexample to claim C8 as stated: at the value 1e15, whose magnitude
is greater than or equal to 1e15, formatNumber renders the plain decimal
string, not the 6-fractional-digit scientific form. -/
theorem claimC8_cex :
    formatNumber (.finite ((10 : ℚ) ^ 15)) = "1000000000000000"
    ∧ qToExponential 6 ((10 : ℚ) ^ 15) = "1.000000e+15"
    ∧ ("1000000000000000" : String) ≠ "1.000000e+15"
    ∧ "1000000000000000".data.contains 'e' = false := by
  refine ⟨by decide, by decide, by decide, by decide⟩

/-- Witness for the corrected claim C8 at 1e16 and 1e-7. -/
theorem claimC8_witness :
    formatNumber (.finite ((10 : ℚ) ^ 16)) = qToExponential 6 ((10 : ℚ) ^ 16)
    ∧ formatNumber (.finite (mkQ 1 (10 ^ 7))) = qToExponential 6 (mkQ 1 (10 ^ 7)) :=
  ⟨claimC8 ((10 : ℚ) ^ 16) (Or.inl (by decide)),
   claimC8 (mkQ 1 (10 ^ 7)) (Or.inr ⟨by decide, by decide⟩)⟩

/- ### Claim C1 -/

/-- Claim C1, corrected: evaluateExpression("5÷0") signals DivisionByZero and
not MathError; and in general a failing evaluation is classified as
DivisionByZero exactly when the preprocessed expression text (after the
power and percent rewrites and operator normalisation) contains the
substring "/0" — not when the original text matches the operand-slash-zero
pattern, which the percent and power rewrites can destroy (see the
counterexample). -/
theorem claimC1 :
    evaluateExpression "5÷0" = .error .divisionByZero
    ∧ ∀ (s : String) (err : CalcError), evaluateExpression s = .error err →
      (err = .divisionByZero ↔ containsSub "/0".data (preprocess s) = true) := by
  constructor
  · decide
  · intro s err he
    have h := evalExpr_error_iff s err he
    by_cases hc : containsSub "/0".data (preprocess s) = true
    · rw [if_pos hc] at h
      exact ⟨fun _ => hc, fun _ => h⟩
    · rw [if_neg hc] at h
      subst h
      exact ⟨fun hd => absurd hd (by decide), fun hcc => absurd hcc hc⟩

/-- Counterexample to claim C1 as stated: "1/0%" contains the literal
division-by-zero pattern (the operand 1 followed by /0 with no further
digit), its evaluation fails, yet the failure is classified as MathError,
because the percent rewrite turns the text into "1/(0/100)", which no longer
contains "/0". -/
theorem claimC1_cex :
    hasDivZeroPat "1/0%".data = true
    ∧ evaluateExpression "1/0%" = .error .mathError
    ∧ CalcError.mathError ≠ CalcError.divisionByZero := by
  refine ⟨by decide, by decide, by decide⟩

/-- Witness for the corrected claim C1: instantiating the classification at
the failing input "5÷0" shows its preprocessed text contains "/0". -/
theorem claimC1_witness : containsSub "/0".data (preprocess "5÷0") = true :=
  (claimC1.2 "5÷0" .divisionByZero (by decide)).mp rfl

/- ### Claim C2 -/

/-- Claim C2, corrected: neither safeEval nor evaluateExpression ever
returns NaN or an infinity as a success value; inside safeEval a raw NaN
result of the dynamic evaluation is signalled as MathError and a raw signed
infinity as OverflowError; but the evaluateExpression wrapper reclassifies
every failure to DivisionByZero or MathError, so at that level a raw
infinity does not surface as OverflowError (see the counterexample). -/
theorem claimC2 :
    (∀ (s : String) (v : JSVal), safeEval s = .ok v → v.isFinite = true)
    ∧ (∀ (s : String) (v : JSVal), evaluateExpression s = .ok v → v.isFinite = true)
    ∧ (∀ s : String, s.data ≠ [] → s.data.all allowedChar = true →
        rawResult s = some .nan → safeEval s = .error .mathError)
    ∧ (∀ s : String, s.data ≠ [] → s.data.all allowedChar = true →
        rawResult s = some .inf → safeEval s = .error .overflowError)
    ∧ (∀ s : String, s.data ≠ [] → s.data.all allowedChar = true →
        rawResult s = some .negInf → safeEval s = .error .overflowError)
    ∧ (∀ (s : String) (err : CalcError), evaluateExpression s = .error err →
        err = .divisionByZero ∨ err = .mathError) := by
  refine ⟨?_, ?_, ?_, ?_, ?_, ?_⟩
  · intro s v h
    simp only [safeEval] at h
    split at h
    · split at h
      · cases h
      · split at h
        · injection h with h1
          rename_i hfin
          rw [← h1]
          exact hfin
        · split at h
          · cases h
          · cases h
    · cases h
  · intro s v h
    simp only [evaluateExpression] at h
    split at h
    · cases h
    · split at h
      · injection h with h1
        rename_i hfin
        rw [← h1]
        exact hfin
      · split at h
        · cases h
        · cases h
  · intro s h1 h2 h3
    rw [rawResult] at h3
    rw [safeEval, if_pos ⟨h1, h2⟩, h3]
    rfl
  · intro s h1 h2 h3
    rw [rawResult] at h3
    rw [safeEval, if_pos ⟨h1, h2⟩, h3]
    rfl
  · intro s h1 h2 h3
    rw [rawResult] at h3
    rw [safeEval, if_pos ⟨h1, h2⟩, h3]
    rfl
  · intro s err he
    have h := evalExpr_error_iff s err he
    by_cases hc : containsSub "/0".data (preprocess s) = true
    · rw [if_pos hc] at h
      exact Or.inl h
    · rw [if_neg hc] at h
      exact Or.inr h

/-- Counterexample to claim C2 as stated: for "5/(1-1)" the raw computed
result is +Infinity, yet evaluateExpression signals MathError, not
OverflowError (safeEval's OverflowError is swallowed by the catch block of
evaluateExpression, whose text contains no "/0"). -/
theorem claimC2_cex :
    rawResult "5/(1-1)" = some .inf
    ∧ preprocess "5/(1-1)" = "5/(1-1)".data
    ∧ evaluateExpression "5/(1-1)" = .error .mathError
    ∧ CalcError.mathError ≠ CalcError.overflowError := by
  refine ⟨by decide, by decide, by decide, by decide⟩

/-- Witness for the corrected claim C2 at the concrete inputs "0/0" (raw
NaN), "5/0" (raw +Infinity) and the success "5+5". -/
theorem claimC2_witness :
    safeEval "0/0" = .error .mathError
    ∧ safeEval "5/0" = .error .overflowError
    ∧ JSVal.isFinite (.finite 10) = true :=
  ⟨claimC2.2.2.1 "0/0" (by decide) (by decide) (by decide),
   claimC2.2.2.2.1 "5/0" (by decide) (by decide) (by decide),
   claimC2.1 "5+5" (.finite 10) (by decide)⟩

/- ### Claim C4 -/

theorem addToHistory_eq (i : ℕ) (ts e : String) (r : JSVal) (st : HistoryState)
    (hm : st.maxHistory = 10) (hl : st.history.length ≤ 10) :
    addToHistory i ts e r st
      = ⟨10, (st.history ++ [mkEntry ⟨i, ts, e, r⟩]).drop ((st.history.length + 1) - 10)⟩ := by
  have hmk : mkEntry ⟨i, ts, e, r⟩
      = (⟨i, jsTrim e, r, formatNumber r, ts⟩ : HistoryEntry) := rfl
  rw [addToHistory, hm, hmk]
  have hlen : (st.history
      ++ [(⟨i, jsTrim e, r, formatNumber r, ts⟩ : HistoryEntry)]).length
      = st.history.length + 1 := by simp
  by_cases hc : st.history.length + 1 > 10
  · rw [if_pos (by rw [hlen]; exact hc)]
    have h11 : st.history.length + 1 - 10 = 1 := by omega
    rw [h11, List.drop_one]
  · rw [if_neg (by rw [hlen]; exact hc)]
    have h0 : st.history.length + 1 - 10 = 0 := by omega
    rw [h0, List.drop_zero]

theorem runAdds_eq : ∀ (l : List AddReq) (st : HistoryState), st.maxHistory = 10 →
    st.history.length ≤ 10 →
    runAdds l st
      = ⟨10, (st.history ++ l.map mkEntry).drop ((st.history.length + l.length) - 10)⟩ := by
  intro l
  induction l with
  | nil =>
      intro st hm hl
      have h0 : st.history.length + ([] : List AddReq).length - 10 = 0 := by
        simp only [List.length_nil]
        omega
      rw [runAdds, List.foldl_nil, List.map_nil, List.append_nil, h0, List.drop_zero]
      obtain ⟨m, h⟩ := st
      exact congrArg (fun n => HistoryState.mk n h) hm
  | cons r l ih =>
      intro st hm hl
      have hstep : runAdds (r :: l) st
          = runAdds l (addToHistory r.id r.ts r.expression r.result st) := by
        rw [runAdds, List.foldl_cons, runAdds]
      rw [hstep, addToHistory_eq _ _ _ _ _ hm hl]
      have hmk : mkEntry ⟨r.id, r.ts, r.expression, r.result⟩ = mkEntry r := rfl
      rw [hmk]
      set d := st.history.length + 1 - 10 with hd
      have hd1 : d ≤ (st.history ++ [mkEntry r]).length := by
        simp only [List.length_append, List.length_singleton]
        omega
      have hlen2 : ((st.history ++ [mkEntry r]).drop d).length ≤ 10 := by
        rw [List.length_drop]
        simp only [List.length_append, List.length_singleton]
        omega
      rw [ih ⟨10, (st.history ++ [mkEntry r]).drop d⟩ rfl hlen2]
      have hout : (((st.history ++ [mkEntry r]).drop d) ++ l.map mkEntry)
          = ((st.history ++ [mkEntry r]) ++ l.map mkEntry).drop d :=
        (List.drop_append_of_le_length hd1).symm
      simp only [hout]
      rw [List.drop_drop]
      have hassoc : (st.history ++ [mkEntry r]) ++ l.map mkEntry
          = st.history ++ (r :: l).map mkEntry := by
        rw [List.map_cons, List.append_assoc]
        rfl
      rw [hassoc]
      congr 1
      have hXlen : (st.history ++ [mkEntry r]).length = st.history.length + 1 := by simp
      have hdrop : (List.drop d (st.history ++ [mkEntry r])).length
          = st.history.length + 1 - d := by rw [List.length_drop, hXlen]
      rw [hdrop]
      simp only [List.length_cons, List.length_map]
      congr 1
      omega

/-- Claim C4, confirmed: from any state within capacity, addToHistory
appends exactly one entry and removes exactly the oldest entry (index 0)
precisely when the length would exceed the capacity 10, so the length never
exceeds 10; adding 12 entries to a fresh history leaves exactly the last 10,
the oldest two evicted, and getItem(0) is the entry of the 3rd inserted
request, whose expression is the 3rd inserted expression's (trimmed) text. -/
theorem claimC4 :
    (∀ (st : HistoryState) (i : ℕ) (ts e : String) (r : JSVal),
      st.maxHistory = 10 → st.history.length ≤ 10 →
      (addToHistory i ts e r st).history.length ≤ 10
      ∧ (addToHistory i ts e r st).history
          = (st.history ++ [mkEntry ⟨i, ts, e, r⟩]).drop ((st.history.length + 1) - 10))
    ∧ (∀ l : List AddReq, l.length = 12 →
        (runAdds l initialHistory).history = (l.drop 2).map mkEntry
        ∧ (runAdds l initialHistory).history.length = 10
        ∧ getHistoryItem 0 (runAdds l initialHistory) = (l.get? 2).map mkEntry
        ∧ (∀ r3 : AddReq, l.get? 2 = some r3 → jsTrim r3.expression = r3.expression →
            (getHistoryItem 0 (runAdds l initialHistory)).map HistoryEntry.expression
              = some r3.expression)) := by
  constructor
  · intro st i ts e r hm hl
    rw [addToHistory_eq i ts e r st hm hl]
    constructor
    · simp only [List.length_drop, List.length_append, List.length_singleton]
      omega
    · rfl
  · intro l hlen
    have hrun := runAdds_eq l initialHistory rfl (by rw [initialHistory]; exact Nat.zero_le _)
    have hh : (runAdds l initialHistory).history = (l.map mkEntry).drop 2 := by
      rw [hrun]
      simp only [initialHistory, List.nil_append, List.length_nil, Nat.zero_add, hlen]
    have hdm : (l.map mkEntry).drop 2 = (l.drop 2).map mkEntry := (List.map_drop mkEntry l 2).symm
    refine ⟨by rw [hh, hdm], ?_, ?_, ?_⟩
    · rw [hh, List.length_drop, List.length_map, hlen]
    · rw [getHistoryItem, hh, hdm, List.get?_map, List.get?_drop, Nat.add_zero]
    · intro r3 h3 htrim
      rw [getHistoryItem, hh, hdm, List.get?_map, List.get?_drop, Nat.add_zero, h3,
        Option.map_some']
      exact congrArg some htrim

/-- Witness for claim C4 at a concrete sequence of 12 insertions. -/
theorem claimC4_witness :
    (runAdds [⟨1, "t", "e1", .finite 1⟩, ⟨2, "t", "e2", .finite 2⟩,
      ⟨3, "t", "e3", .finite 3⟩, ⟨4, "t", "e4", .finite 4⟩,
      ⟨5, "t", "e5", .finite 5⟩, ⟨6, "t", "e6", .finite 6⟩,
      ⟨7, "t", "e7", .finite 7⟩, ⟨8, "t", "e8", .finite 8⟩,
      ⟨9, "t", "e9", .finite 9⟩, ⟨10, "t", "e10", .finite 10⟩,
      ⟨11, "t", "e11", .finite 11⟩, ⟨12, "t", "e12", .finite 12⟩]
      initialHistory).history.length = 10
    ∧ (getHistoryItem 0 (runAdds [⟨1, "t", "e1", .finite 1⟩, ⟨2, "t", "e2", .finite 2⟩,
      ⟨3, "t", "e3", .finite 3⟩, ⟨4, "t", "e4", .finite 4⟩,
      ⟨5, "t", "e5", .finite 5⟩, ⟨6, "t", "e6", .finite 6⟩,
      ⟨7, "t", "e7", .finite 7⟩, ⟨8, "t", "e8", .finite 8⟩,
      ⟨9, "t", "e9", .finite 9⟩, ⟨10, "t", "e10", .finite 10⟩,
      ⟨11, "t", "e11", .finite 11⟩, ⟨12, "t", "e12", .finite 12⟩]
      initialHistory)).map HistoryEntry.expression = some "e3" := by
  have h := claimC4.2 [⟨1, "t", "e1", .finite 1⟩, ⟨2, "t", "e2", .finite 2⟩,
      ⟨3, "t", "e3", .finite 3⟩, ⟨4, "t", "e4", .finite 4⟩,
      ⟨5, "t", "e5", .finite 5⟩, ⟨6, "t", "e6", .finite 6⟩,
      ⟨7, "t", "e7", .finite 7⟩, ⟨8, "t", "e8", .finite 8⟩,
      ⟨9, "t", "e9", .finite 9⟩, ⟨10, "t", "e10", .finite 10⟩,
      ⟨11, "t", "e11", .finite 11⟩, ⟨12, "t", "e12", .finite 12⟩] (by rfl)
  exact ⟨h.2.1, h.2.2.2 ⟨3, "t", "e3", .finite 3⟩ (by rfl) (by decide)⟩

theorem parseE_succ_prim_num (f : ℕ) (q : ℚ) (r : List JTok) :
    parseE (f + 1) .prim (.num q :: r) = some (.finite q, r) := rfl

theorem parseE_succ_prim_lp (f : ℕ) (r : List JTok) :
    parseE (f + 1) .prim (.tlp :: r)
      = match parseE f .addl r with
        | some (v, .trp :: r2) => some (v, r2)
        | _ => none := rfl

theorem parseE_succ_unary_fall (f : ℕ) (ts : List JTok) (h : addStop ts = true) :
    parseE (f + 1) .unary ts = parseE f .prim ts := by
  cases ts with
  | nil => rfl
  | cons t r => cases t <;> first | rfl | simp [addStop] at h

theorem parseE_succ_unary_add (f : ℕ) (r : List JTok) :
    parseE (f + 1) .unary (.tadd :: r) = parseE f .unary r := rfl

theorem parseE_succ_unary_sub (f : ℕ) (r : List JTok) :
    parseE (f + 1) .unary (.tsub :: r)
      = match parseE f .unary r with
        | some (v, r2) => some (jsNeg v, r2)
        | none => none := rfl

theorem parseE_succ_mull (f : ℕ) (ts : List JTok) :
    parseE (f + 1) .mull ts
      = match parseE f .unary ts with
        | some (v, r) => parseE f (.mulTail v) r
        | none => none := rfl

theorem parseE_succ_addl (f : ℕ) (ts : List JTok) :
    parseE (f + 1) .addl ts
      = match parseE f .mull ts with
        | some (v, r) => parseE f (.addTail v) r
        | none => none := rfl

theorem parseE_succ_mulTail_stop (f : ℕ) (a : JSVal) (ts : List JTok)
    (h : mulStop ts = true) : parseE (f + 1) (.mulTail a) ts = some (a, ts) := by
  cases ts with
  | nil => rfl
  | cons t r => cases t <;> first | rfl | simp [mulStop] at h

theorem parseE_succ_mulTail_mul (f : ℕ) (a : JSVal) (r : List JTok) :
    parseE (f + 1) (.mulTail a) (.tmul :: r)
      = match parseE f .unary r with
        | some (v, r2) => parseE f (.mulTail (jsMul a v)) r2
        | none => none := rfl

theorem parseE_succ_mulTail_div (f : ℕ) (a : JSVal) (r : List JTok) :
    parseE (f + 1) (.mulTail a) (.tdiv :: r)
      = match parseE f .unary r with
        | some (v, r2) => parseE f (.mulTail (jsDiv a v)) r2
        | none => none := rfl

theorem parseE_succ_addTail_stop (f : ℕ) (a : JSVal) (ts : List JTok)
    (h : addStop ts = true) : parseE (f + 1) (.addTail a) ts = some (a, ts) := by
  cases ts with
  | nil => rfl
  | cons t r => cases t <;> first | rfl | simp [addStop] at h

theorem parseE_succ_addTail_add (f : ℕ) (a : JSVal) (r : List JTok) :
    parseE (f + 1) (.addTail a) (.tadd :: r)
      = match parseE f .mull r with
        | some (v, r2) => parseE f (.addTail (jsAdd a v)) r2
        | none => none := rfl

theorem parseE_succ_addTail_sub (f : ℕ) (a : JSVal) (r : List JTok) :
    parseE (f + 1) (.addTail a) (.tsub :: r)
      = match parseE f .mull r with
        | some (v, r2) => parseE f (.addTail (jsSub a v)) r2
        | none => none := rfl

theorem parseE_mono : ∀ (f : ℕ) (st : PState) (ts : List JTok) (out : JSVal × List JTok),
    parseE f st ts = some out → parseE (f + 1) st ts = some out := by
  intro f
  induction f with
  | zero =>
      intro st ts out h
      simp [parseE] at h
  | succ f ih =>
      intro st ts out h
      cases st with
      | prim =>
          cases ts with
          | nil => simp [parseE] at h
          | cons t r =>
              cases t
              case num q =>
                rw [parseE_succ_prim_num] at h ⊢
                exact h
              case tlp =>
                rw [parseE_succ_prim_lp] at h ⊢
                cases hp : parseE f PState.addl r with
                | none => rw [hp] at h; exact absurd h (by simp)
                | some vr =>
                    rw [hp] at h
                    rw [ih _ _ _ hp]
                    exact h
              all_goals simp [parseE] at h
      | unary =>
          cases ts with
          | nil =>
              rw [parseE_succ_unary_fall f _ (by rfl)] at h
              rw [parseE_succ_unary_fall (f + 1) _ (by rfl)]
              exact ih _ _ _ h
          | cons t r =>
              cases t
              case tadd =>
                rw [parseE_succ_unary_add] at h ⊢
                exact ih _ _ _ h
              case tsub =>
                rw [parseE_succ_unary_sub] at h ⊢
                cases hp : parseE f PState.unary r with
                | none => rw [hp] at h; exact absurd h (by simp)
                | some vr =>
                    rw [hp] at h
                    rw [ih _ _ _ hp]
                    exact h
              all_goals
                rw [parseE_succ_unary_fall f _ (by rfl)] at h
              all_goals
                rw [parseE_succ_unary_fall (f + 1) _ (by rfl)]
              all_goals exact ih _ _ _ h
      | mull =>
          rw [parseE_succ_mull] at h ⊢
          cases hp : parseE f PState.unary ts with
          | none => rw [hp] at h; exact absurd h (by simp)
          | some vr =>
              rw [hp] at h
              rw [ih _ _ _ hp]
              obtain ⟨v, r⟩ := vr
              exact ih _ _ _ h
      | addl =>
          rw [parseE_succ_addl] at h ⊢
          cases hp : parseE f PState.mull ts with
          | none => rw [hp] at h; exact absurd h (by simp)
          | some vr =>
              rw [hp] at h
              rw [ih _ _ _ hp]
              obtain ⟨v, r⟩ := vr
              exact ih _ _ _ h
      | mulTail a =>
          cases ts with
          | nil =>
              rw [parseE_succ_mulTail_stop f _ _ (by rfl)] at h
              rw [parseE_succ_mulTail_stop (f + 1) _ _ (by rfl)]
              exact h
          | cons t r =>
              cases t
              case tmul =>
                rw [parseE_succ_mulTail_mul] at h ⊢
                cases hp : parseE f PState.unary r with
                | none => rw [hp] at h; exact absurd h (by simp)
                | some vr =>
                    rw [hp] at h
                    rw [ih _ _ _ hp]
                    obtain ⟨v, r2⟩ := vr
                    exact ih _ _ _ h
              case tdiv =>
                rw [parseE_succ_mulTail_div] at h ⊢
                cases hp : parseE f PState.unary r with
                | none => rw [hp] at h; exact absurd h (by simp)
                | some vr =>
                    rw [hp] at h
                    rw [ih _ _ _ hp]
                    obtain ⟨v, r2⟩ := vr
                    exact ih _ _ _ h
              case tpow => simp [parseE] at h
              case tincr => simp [parseE] at h
              case tdecr => simp [parseE] at h
              all_goals
                rw [parseE_succ_mulTail_stop f _ _ (by rfl)] at h
              all_goals
                rw [parseE_succ_mulTail_stop (f + 1) _ _ (by rfl)]
              all_goals exact h
      | addTail a =>
          cases ts with
          | nil =>
              rw [parseE_succ_addTail_stop f _ _ (by rfl)] at h
              rw [parseE_succ_addTail_stop (f + 1) _ _ (by rfl)]
              exact h
          | cons t r =>
              cases t
              case tadd =>
                rw [parseE_succ_addTail_add] at h ⊢
                cases hp : parseE f PState.mull r with
                | none => rw [hp] at h; exact absurd h (by simp)
                | some vr =>
                    rw [hp] at h
                    rw [ih _ _ _ hp]
                    obtain ⟨v, r2⟩ := vr
                    exact ih _ _ _ h
              case tsub =>
                rw [parseE_succ_addTail_sub] at h ⊢
                cases hp : parseE f PState.mull r with
                | none => rw [hp] at h; exact absurd h (by simp)
                | some vr =>
                    rw [hp] at h
                    rw [ih _ _ _ hp]
                    obtain ⟨v, r2⟩ := vr
                    exact ih _ _ _ h
              all_goals
                rw [parseE_succ_addTail_stop f _ _ (by rfl)] at h
              all_goals
                rw [parseE_succ_addTail_stop (f + 1) _ _ (by rfl)]
              all_goals exact h

theorem parseE_le {st : PState} {ts : List JTok} {out : JSVal × List JTok} :
    ∀ {f g : ℕ}, f ≤ g → parseE f st ts = some out → parseE g st ts = some out := by
  intro f g hfg h
  obtain ⟨k, rfl⟩ := Nat.exists_eq_add_of_le hfg
  clear hfg
  induction k with
  | zero => exact h
  | succ k ih => exact parseE_mono _ _ _ _ ih

theorem parseE_shrink : ∀ (f : ℕ) (st : PState) (ts : List JTok) (v : JSVal) (r : List JTok),
    parseE f st ts = some (v, r) →
    r.length ≤ ts.length ∧ (isTail st = false → r.length < ts.length) := by
  intro f
  induction f with
  | zero =>
      intro st ts v r h
      simp [parseE] at h
  | succ f ih =>
      intro st ts v r h
      cases st with
      | prim =>
          cases ts with
          | nil => simp [parseE] at h
          | cons t rr =>
              cases t
              case num q =>
                rw [parseE_succ_prim_num] at h
                injection h with h1
                cases h1
                exact ⟨Nat.le_succ _, fun _ => Nat.lt_succ_self _⟩
              case tlp =>
                rw [parseE_succ_prim_lp] at h
                split at h
                · rename_i v2 r2 heq
                  injection h with h1
                  cases h1
                  have hh := ih _ _ _ _ heq
                  have h2 := hh.1
                  simp only [List.length_cons] at h2 ⊢
                  exact ⟨by omega, fun _ => by omega⟩
                · exact absurd h (by simp)
              all_goals simp [parseE] at h
      | unary =>
          cases ts with
          | nil =>
              rw [parseE_succ_unary_fall f _ (by rfl)] at h
              have hh := ih _ _ _ _ h
              exact ⟨hh.1, fun _ => hh.2 rfl⟩
          | cons t rr =>
              cases t
              case tadd =>
                rw [parseE_succ_unary_add] at h
                have hh := ih _ _ _ _ h
                have h2 := hh.1
                have h3 := hh.2 rfl
                simp only [List.length_cons] at *
                exact ⟨by omega, fun _ => by omega⟩
              case tsub =>
                rw [parseE_succ_unary_sub] at h
                split at h
                · rename_i v2 r2 heq
                  injection h with h1
                  cases h1
                  have hh := ih _ _ _ _ heq
                  have h2 := hh.1
                  have h3 := hh.2 rfl
                  simp only [List.length_cons] at *
                  exact ⟨by omega, fun _ => by omega⟩
                · exact absurd h (by simp)
              all_goals
                rw [parseE_succ_unary_fall f _ (by rfl)] at h
              all_goals
                have hh := ih _ _ _ _ h
              all_goals exact ⟨hh.1, fun _ => hh.2 rfl⟩
      | mull =>
          rw [parseE_succ_mull] at h
          split at h
          · rename_i v2 r2 heq
            have h1 := ih _ _ _ _ heq
            have h2 := ih _ _ _ _ h
            have h3 := h1.2 rfl
            have h4 := h2.1
            exact ⟨by omega, fun _ => by omega⟩
          · exact absurd h (by simp)
      | addl =>
          rw [parseE_succ_addl] at h
          split at h
          · rename_i v2 r2 heq
            have h1 := ih _ _ _ _ heq
            have h2 := ih _ _ _ _ h
            have h3 := h1.2 rfl
            have h4 := h2.1
            exact ⟨by omega, fun _ => by omega⟩
          · exact absurd h (by simp)
      | mulTail a =>
          cases ts with
          | nil =>
              rw [parseE_succ_mulTail_stop f _ _ (by rfl)] at h
              injection h with h1
              cases h1
              exact ⟨Nat.le_refl _, fun hcon => by simp [isTail] at hcon⟩
          | cons t rr =>
              cases t
              case tmul =>
                rw [parseE_succ_mulTail_mul] at h
                split at h
                · rename_i v2 r2 heq
                  have h1 := ih _ _ _ _ heq
                  have h2 := ih _ _ _ _ h
                  have h3 := h1.2 rfl
                  have h4 := h2.1
                  simp only [List.length_cons] at *
                  exact ⟨by omega, fun _ => by omega⟩
                · exact absurd h (by simp)
              case tdiv =>
                rw [parseE_succ_mulTail_div] at h
                split at h
                · rename_i v2 r2 heq
                  have h1 := ih _ _ _ _ heq
                  have h2 := ih _ _ _ _ h
                  have h3 := h1.2 rfl
                  have h4 := h2.1
                  simp only [List.length_cons] at *
                  exact ⟨by omega, fun _ => by omega⟩
                · exact absurd h (by simp)
              case tpow => simp [parseE] at h
              case tincr => simp [parseE] at h
              case tdecr => simp [parseE] at h
              all_goals
                rw [parseE_succ_mulTail_stop f _ _ (by rfl)] at h
              all_goals
                injection h with h1
              all_goals
                cases h1
              all_goals
                exact ⟨Nat.le_refl _, fun hcon => by simp [isTail] at hcon⟩
      | addTail a =>
          cases ts with
          | nil =>
              rw [parseE_succ_addTail_stop f _ _ (by rfl)] at h
              injection h with h1
              cases h1
              exact ⟨Nat.le_refl _, fun hcon => by simp [isTail] at hcon⟩
          | cons t rr =>
              cases t
              case tadd =>
                rw [parseE_succ_addTail_add] at h
                split at h
                · rename_i v2 r2 heq
                  have h1 := ih _ _ _ _ heq
                  have h2 := ih _ _ _ _ h
                  have h3 := h1.2 rfl
                  have h4 := h2.1
                  simp only [List.length_cons] at *
                  exact ⟨by omega, fun _ => by omega⟩
                · exact absurd h (by simp)
              case tsub =>
                rw [parseE_succ_addTail_sub] at h
                split at h
                · rename_i v2 r2 heq
                  have h1 := ih _ _ _ _ heq
                  have h2 := ih _ _ _ _ h
                  have h3 := h1.2 rfl
                  have h4 := h2.1
                  simp only [List.length_cons] at *
                  exact ⟨by omega, fun _ => by omega⟩
                · exact absurd h (by simp)
              all_goals
                rw [parseE_succ_addTail_stop f _ _ (by rfl)] at h
              all_goals
                injection h with h1
              all_goals
                cases h1
              all_goals
                exact ⟨Nat.le_refl _, fun hcon => by simp [isTail] at hcon⟩

theorem parseE_bound : ∀ (f : ℕ) (st : PState) (ts : List JTok) (out : JSVal × List JTok),
    parseE f st ts = some out → parseE (6 * ts.length + pRank st + 1) st ts = some out := by
  intro f
  induction f with
  | zero =>
      intro st ts out h
      simp [parseE] at h
  | succ f ih =>
      intro st ts out h
      cases st with
      | prim =>
          cases ts with
          | nil => simp [parseE] at h
          | cons t rr =>
              cases t
              case num q =>
                rw [parseE_succ_prim_num] at h
                rw [parseE_succ_prim_num]
                exact h
              case tlp =>
                rw [parseE_succ_prim_lp] at h
                split at h
                · rename_i v2 r2 heq
                  rw [parseE_succ_prim_lp]
                  have hb2 : parseE (6 * (JTok.tlp :: rr).length + pRank PState.prim)
                      PState.addl rr = some (v2, .trp :: r2) :=
                    parseE_le (by simp only [pRank, List.length_cons]; omega) (ih _ _ _ heq)
                  rw [hb2]
                  exact h
                · exact absurd h (by simp)
              all_goals simp [parseE] at h
      | unary =>
          cases ts with
          | nil =>
              rw [parseE_succ_unary_fall f _ (by rfl)] at h
              rw [parseE_succ_unary_fall _ _ (by rfl)]
              exact parseE_le (by simp only [pRank, List.length_nil]; omega) (ih _ _ _ h)
          | cons t rr =>
              cases t
              case tadd =>
                rw [parseE_succ_unary_add] at h
                rw [parseE_succ_unary_add]
                exact parseE_le (by simp only [pRank, List.length_cons]; omega) (ih _ _ _ h)
              case tsub =>
                rw [parseE_succ_unary_sub] at h
                rw [parseE_succ_unary_sub]
                split at h
                · rename_i v2 r2 heq
                  have hb2 : parseE (6 * (JTok.tsub :: rr).length + pRank PState.unary)
                      PState.unary rr = some (v2, r2) :=
                    parseE_le (by simp only [pRank, List.length_cons]; omega) (ih _ _ _ heq)
                  rw [hb2]
                  exact h
                · exact absurd h (by simp)
              all_goals
                rw [parseE_succ_unary_fall f _ (by rfl)] at h
              all_goals
                rw [parseE_succ_unary_fall _ _ (by rfl)]
              all_goals
                exact parseE_le (by simp only [pRank, List.length_cons]; omega) (ih _ _ _ h)
      | mull =>
          rw [parseE_succ_mull] at h
          rw [parseE_succ_mull]
          split at h
          · rename_i v2 r2 heq
            have hs := (parseE_shrink _ _ _ _ _ heq).1
            have hb2 : parseE (6 * ts.length + pRank PState.mull) PState.unary ts
                = some (v2, r2) :=
              parseE_le (by simp only [pRank]; omega) (ih _ _ _ heq)
            rw [hb2]
            exact parseE_le (by simp only [pRank]; omega) (ih _ _ _ h)
          · exact absurd h (by simp)
      | addl =>
          rw [parseE_succ_addl] at h
          rw [parseE_succ_addl]
          split at h
          · rename_i v2 r2 heq
            have hs := (parseE_shrink _ _ _ _ _ heq).1
            have hb2 : parseE (6 * ts.length + pRank PState.addl) PState.mull ts
                = some (v2, r2) :=
              parseE_le (by simp only [pRank]; omega) (ih _ _ _ heq)
            rw [hb2]
            exact parseE_le (by simp only [pRank]; omega) (ih _ _ _ h)
          · exact absurd h (by simp)
      | mulTail a =>
          cases ts with
          | nil =>
              rw [parseE_succ_mulTail_stop f _ _ (by rfl)] at h
              rw [parseE_succ_mulTail_stop _ _ _ (by rfl)]
              exact h
          | cons t rr =>
              cases t
              case tmul =>
                rw [parseE_succ_mulTail_mul] at h
                rw [parseE_succ_mulTail_mul]
                split at h
                · rename_i v2 r2 heq
                  have hs := (parseE_shrink _ _ _ _ _ heq).1
                  have hb2 : parseE (6 * (JTok.tmul :: rr).length + pRank (PState.mulTail a))
                      PState.unary rr = some (v2, r2) :=
                    parseE_le (by simp only [pRank, List.length_cons]; omega) (ih _ _ _ heq)
                  rw [hb2]
                  exact parseE_le (by simp only [pRank, List.length_cons]; omega) (ih _ _ _ h)
                · exact absurd h (by simp)
              case tdiv =>
                rw [parseE_succ_mulTail_div] at h
                rw [parseE_succ_mulTail_div]
                split at h
                · rename_i v2 r2 heq
                  have hs := (parseE_shrink _ _ _ _ _ heq).1
                  have hb2 : parseE (6 * (JTok.tdiv :: rr).length + pRank (PState.mulTail a))
                      PState.unary rr = some (v2, r2) :=
                    parseE_le (by simp only [pRank, List.length_cons]; omega) (ih _ _ _ heq)
                  rw [hb2]
                  exact parseE_le (by simp only [pRank, List.length_cons]; omega) (ih _ _ _ h)
                · exact absurd h (by simp)
              case tpow => simp [parseE] at h
              case tincr => simp [parseE] at h
              case tdecr => simp [parseE] at h
              all_goals
                rw [parseE_succ_mulTail_stop f _ _ (by rfl)] at h
              all_goals
                rw [parseE_succ_mulTail_stop _ _ _ (by rfl)]
              all_goals exact h
      | addTail a =>
          cases ts with
          | nil =>
              rw [parseE_succ_addTail_stop f _ _ (by rfl)] at h
              rw [parseE_succ_addTail_stop _ _ _ (by rfl)]
              exact h
          | cons t rr =>
              cases t
              case tadd =>
                rw [parseE_succ_addTail_add] at h
                rw [parseE_succ_addTail_add]
                split at h
                · rename_i v2 r2 heq
                  have hs := (parseE_shrink _ _ _ _ _ heq).1
                  have hb2 : parseE (6 * (JTok.tadd :: rr).length + pRank (PState.addTail a))
                      PState.mull rr = some (v2, r2) :=
                    parseE_le (by simp only [pRank, List.length_cons]; omega) (ih _ _ _ heq)
                  rw [hb2]
                  exact parseE_le (by simp only [pRank, List.length_cons]; omega) (ih _ _ _ h)
                · exact absurd h (by simp)
              case tsub =>
                rw [parseE_succ_addTail_sub] at h
                rw [parseE_succ_addTail_sub]
                split at h
                · rename_i v2 r2 heq
                  have hs := (parseE_shrink _ _ _ _ _ heq).1
                  have hb2 : parseE (6 * (JTok.tsub :: rr).length + pRank (PState.addTail a))
                      PState.mull rr = some (v2, r2) :=
                    parseE_le (by simp only [pRank, List.length_cons]; omega) (ih _ _ _ heq)
                  rw [hb2]
                  exact parseE_le (by simp only [pRank, List.length_cons]; omega) (ih _ _ _ h)
                · exact absurd h (by simp)
              all_goals
                rw [parseE_succ_addTail_stop f _ _ (by rfl)] at h
              all_goals
                rw [parseE_succ_addTail_stop _ _ _ (by rfl)]
              all_goals exact h

theorem pconv_prim_num (q : ℚ) (r : List JTok) : PConv .prim (.num q :: r) (.finite q, r) :=
  ⟨1, fun f hf => by
    obtain ⟨g, rfl⟩ : ∃ g, f = g + 1 := ⟨f - 1, by omega⟩
    exact parseE_succ_prim_num g q r⟩

theorem pconv_prim_paren {ts : List JTok} {v : JSVal} {r : List JTok}
    (h : PConv .addl ts (v, .trp :: r)) : PConv .prim (.tlp :: ts) (v, r) := by
  obtain ⟨n, hn⟩ := h
  refine ⟨n + 1, fun f hf => ?_⟩
  obtain ⟨g, rfl⟩ : ∃ g, f = g + 1 := ⟨f - 1, by omega⟩
  rw [parseE_succ_prim_lp, hn g (by omega)]

theorem pconv_unary_fall {ts : List JTok} {out : JSVal × List JTok}
    (hstop : addStop ts = true) (h : PConv .prim ts out) : PConv .unary ts out := by
  obtain ⟨n, hn⟩ := h
  refine ⟨n + 1, fun f hf => ?_⟩
  obtain ⟨g, rfl⟩ : ∃ g, f = g + 1 := ⟨f - 1, by omega⟩
  rw [parseE_succ_unary_fall g _ hstop]
  exact hn g (by omega)

theorem pconv_mull {ts : List JTok} {v : JSVal} {r : List JTok} {out : JSVal × List JTok}
    (h1 : PConv .unary ts (v, r)) (h2 : PConv (.mulTail v) r out) : PConv .mull ts out := by
  obtain ⟨n1, hn1⟩ := h1
  obtain ⟨n2, hn2⟩ := h2
  refine ⟨n1 + n2 + 1, fun f hf => ?_⟩
  obtain ⟨g, rfl⟩ : ∃ g, f = g + 1 := ⟨f - 1, by omega⟩
  rw [parseE_succ_mull, hn1 g (by omega)]
  exact hn2 g (by omega)

theorem pconv_addl {ts : List JTok} {v : JSVal} {r : List JTok} {out : JSVal × List JTok}
    (h1 : PConv .mull ts (v, r)) (h2 : PConv (.addTail v) r out) : PConv .addl ts out := by
  obtain ⟨n1, hn1⟩ := h1
  obtain ⟨n2, hn2⟩ := h2
  refine ⟨n1 + n2 + 1, fun f hf => ?_⟩
  obtain ⟨g, rfl⟩ : ∃ g, f = g + 1 := ⟨f - 1, by omega⟩
  rw [parseE_succ_addl, hn1 g (by omega)]
  exact hn2 g (by omega)

theorem pconv_mulTail_stop {a : JSVal} {ts : List JTok} (h : mulStop ts = true) :
    PConv (.mulTail a) ts (a, ts) :=
  ⟨1, fun f hf => by
    obtain ⟨g, rfl⟩ : ∃ g, f = g + 1 := ⟨f - 1, by omega⟩
    exact parseE_succ_mulTail_stop g a ts h⟩

theorem pconv_addTail_stop {a : JSVal} {ts : List JTok} (h : addStop ts = true) :
    PConv (.addTail a) ts (a, ts) :=
  ⟨1, fun f hf => by
    obtain ⟨g, rfl⟩ : ∃ g, f = g + 1 := ⟨f - 1, by omega⟩
    exact parseE_succ_addTail_stop g a ts h⟩

theorem pconv_mulTail_mul {a : JSVal} {r : List JTok} {v : JSVal} {r2 : List JTok}
    {out : JSVal × List JTok} (h1 : PConv .unary r (v, r2))
    (h2 : PConv (.mulTail (jsMul a v)) r2 out) : PConv (.mulTail a) (.tmul :: r) out := by
  obtain ⟨n1, hn1⟩ := h1
  obtain ⟨n2, hn2⟩ := h2
  refine ⟨n1 + n2 + 1, fun f hf => ?_⟩
  obtain ⟨g, rfl⟩ : ∃ g, f = g + 1 := ⟨f - 1, by omega⟩
  rw [parseE_succ_mulTail_mul, hn1 g (by omega)]
  exact hn2 g (by omega)

theorem pconv_mulTail_div {a : JSVal} {r : List JTok} {v : JSVal} {r2 : List JTok}
    {out : JSVal × List JTok} (h1 : PConv .unary r (v, r2))
    (h2 : PConv (.mulTail (jsDiv a v)) r2 out) : PConv (.mulTail a) (.tdiv :: r) out := by
  obtain ⟨n1, hn1⟩ := h1
  obtain ⟨n2, hn2⟩ := h2
  refine ⟨n1 + n2 + 1, fun f hf => ?_⟩
  obtain ⟨g, rfl⟩ : ∃ g, f = g + 1 := ⟨f - 1, by omega⟩
  rw [parseE_succ_mulTail_div, hn1 g (by omega)]
  exact hn2 g (by omega)

theorem pconv_addTail_add {a : JSVal} {r : List JTok} {v : JSVal} {r2 : List JTok}
    {out : JSVal × List JTok} (h1 : PConv .mull r (v, r2))
    (h2 : PConv (.addTail (jsAdd a v)) r2 out) : PConv (.addTail a) (.tadd :: r) out := by
  obtain ⟨n1, hn1⟩ := h1
  obtain ⟨n2, hn2⟩ := h2
  refine ⟨n1 + n2 + 1, fun f hf => ?_⟩
  obtain ⟨g, rfl⟩ : ∃ g, f = g + 1 := ⟨f - 1, by omega⟩
  rw [parseE_succ_addTail_add, hn1 g (by omega)]
  exact hn2 g (by omega)

theorem pconv_addTail_sub {a : JSVal} {r : List JTok} {v : JSVal} {r2 : List JTok}
    {out : JSVal × List JTok} (h1 : PConv .mull r (v, r2))
    (h2 : PConv (.addTail (jsSub a v)) r2 out) : PConv (.addTail a) (.tsub :: r) out := by
  obtain ⟨n1, hn1⟩ := h1
  obtain ⟨n2, hn2⟩ := h2
  refine ⟨n1 + n2 + 1, fun f hf => ?_⟩
  obtain ⟨g, rfl⟩ : ∃ g, f = g + 1 := ⟨f - 1, by omega⟩
  rw [parseE_succ_addTail_sub, hn1 g (by omega)]
  exact hn2 g (by omega)

theorem jsAdd_finite (a b : ℚ) : jsAdd (.finite a) (.finite b) = .finite (a + b) := by
  show JSVal.finite (qAdd a b) = _
  rw [qAdd_eq]

theorem jsSub_finite (a b : ℚ) : jsSub (.finite a) (.finite b) = .finite (a - b) := by
  show JSVal.finite (qSub a b) = _
  rw [qSub_eq]

theorem jsMul_finite (a b : ℚ) : jsMul (.finite a) (.finite b) = .finite (a * b) := by
  show JSVal.finite (qMul a b) = _
  rw [qMul_eq]

theorem jsDiv_finite (a b : ℚ) (hb : b ≠ 0) :
    jsDiv (.finite a) (.finite b) = .finite (a / b) := by
  show (if b = 0 then if a = 0 then JSVal.nan else if 0 < a then JSVal.inf else JSVal.negInf
    else JSVal.finite (qDiv a b)) = _
  rw [if_neg hb, qDiv_eq]

theorem decVal (n f k : ℕ) :
    mkQ ((n * 10 ^ k + f : ℕ) : Int) (10 ^ k) = (n : ℚ) + (f : ℚ) / (10 : ℚ) ^ k := by
  rw [mkQ_eq]
  have h10 : ((10 : ℚ)) ^ k ≠ 0 := pow_ne_zero _ (by norm_num)
  push_cast
  field_simp

theorem parse_toks : ∀ (e : AExp) (q : ℚ), e.wf = true → denote e = some q →
    (∀ r out, mulStop r = true → PConv (.addTail (.finite q)) r out →
      PConv .addl (toksW 1 e ++ r) out)
    ∧ (∀ r out, PConv (.mulTail (.finite q)) r out → PConv .mull (toksW 2 e ++ r) out)
    ∧ (∀ r, PConv .prim (toksW 3 e ++ r) (.finite q, r))
    ∧ (∀ r, PConv .unary (toksW 3 e ++ r) (.finite q, r)) := by
  intro e
  induction e with
  | lit n =>
      intro q hwf hq
      rw [denote] at hq
      injection hq with hq1
      subst hq1
      have hS3 : ∀ r, PConv .prim (toksW 3 (.lit n) ++ r) (.finite ((n : ℕ) : ℚ), r) :=
        fun r => pconv_prim_num _ _
      have hSu : ∀ r, PConv .unary (toksW 3 (.lit n) ++ r) (.finite ((n : ℕ) : ℚ), r) :=
        fun r => pconv_unary_fall (by rfl) (hS3 r)
      have hS2 : ∀ r out, PConv (.mulTail (.finite ((n : ℕ) : ℚ))) r out →
          PConv .mull (toksW 2 (.lit n) ++ r) out :=
        fun r out hc => pconv_mull (hSu r) hc
      have hS1 : ∀ r out, mulStop r = true → PConv (.addTail (.finite ((n : ℕ) : ℚ))) r out →
          PConv .addl (toksW 1 (.lit n) ++ r) out :=
        fun r out hstop hc =>
          pconv_addl (pconv_mull (hSu r) (pconv_mulTail_stop hstop)) hc
      exact ⟨hS1, hS2, hS3, hSu⟩
  | dec n f k =>
      intro q hwf hq
      rw [denote] at hq
      injection hq with hq1
      have hval : JSVal.finite (mkQ ((n * 10 ^ k + f : ℕ) : Int) (10 ^ k)) = .finite q := by
        rw [decVal, hq1]
      have hS3 : ∀ r, PConv .prim (toksW 3 (.dec n f k) ++ r) (.finite q, r) := by
        intro r
        have h0 := pconv_prim_num (mkQ ((n * 10 ^ k + f : ℕ) : Int) (10 ^ k)) r
        rw [hval] at h0
        exact h0
      have hSu : ∀ r, PConv .unary (toksW 3 (.dec n f k) ++ r) (.finite q, r) :=
        fun r => pconv_unary_fall (by rfl) (hS3 r)
      have hS2 : ∀ r out, PConv (.mulTail (.finite q)) r out →
          PConv .mull (toksW 2 (.dec n f k) ++ r) out :=
        fun r out hc => pconv_mull (hSu r) hc
      have hS1 : ∀ r out, mulStop r = true → PConv (.addTail (.finite q)) r out →
          PConv .addl (toksW 1 (.dec n f k) ++ r) out :=
        fun r out hstop hc =>
          pconv_addl (pconv_mull (hSu r) (pconv_mulTail_stop hstop)) hc
      exact ⟨hS1, hS2, hS3, hSu⟩
  | add a b iha ihb =>
      intro q hwf hq
      rw [denote] at hq
      cases hda : denote a with
      | none => rw [hda] at hq; simp at hq
      | some qa =>
          cases hdb : denote b with
          | none => rw [hda, hdb] at hq; simp at hq
          | some qb =>
              rw [hda, hdb] at hq
              injection hq with hq1
              have hw : a.wf = true ∧ b.wf = true := by
                simp only [AExp.wf, Bool.and_eq_true] at hwf
                exact hwf
              obtain ⟨ha1, ha2, ha3, ha4⟩ := iha qa hw.1 hda
              obtain ⟨hb1, hb2, hb3, hb4⟩ := ihb qb hw.2 hdb
              have hS1 : ∀ r out, mulStop r = true → PConv (.addTail (.finite q)) r out →
                  PConv .addl (toksW 1 (.add a b) ++ r) out := by
                intro r out hstop hc
                have hshape : toksW 1 (.add a b) ++ r
                    = toksW 1 a ++ (.tadd :: (toksW 2 b ++ r)) := by
                  show (toksW 1 a ++ .tadd :: toksW 2 b) ++ r = _
                  rw [List.append_assoc]
                  rfl
                rw [hshape]
                refine ha1 _ _ (by rfl) ?_
                refine pconv_addTail_add (hb2 r _ (pconv_mulTail_stop hstop)) ?_
                rw [jsAdd_finite, hq1]
                exact hc
              have hS2 : ∀ r out, PConv (.mulTail (.finite q)) r out →
                  PConv .mull (toksW 2 (.add a b) ++ r) out := by
                intro r out hc
                have hshape : toksW 2 (.add a b) ++ r
                    = .tlp :: (toksOf (.add a b) ++ (.trp :: r)) := by
                  show (.tlp :: (toksOf (.add a b) ++ [.trp])) ++ r = _
                  rw [List.cons_append, List.append_assoc]
                  rfl
                rw [hshape]
                refine pconv_mull (pconv_unary_fall (by rfl) (pconv_prim_paren ?_)) hc
                have heq0 : toksOf (.add a b) = toksW 1 (.add a b) := rfl
                rw [heq0]
                exact hS1 _ _ (by rfl) (pconv_addTail_stop (by rfl))
              have hS3 : ∀ r, PConv .prim (toksW 3 (.add a b) ++ r) (.finite q, r) := by
                intro r
                have hshape : toksW 3 (.add a b) ++ r
                    = .tlp :: (toksOf (.add a b) ++ (.trp :: r)) := by
                  show (.tlp :: (toksOf (.add a b) ++ [.trp])) ++ r = _
                  rw [List.cons_append, List.append_assoc]
                  rfl
                rw [hshape]
                refine pconv_prim_paren ?_
                have heq0 : toksOf (.add a b) = toksW 1 (.add a b) := rfl
                rw [heq0]
                exact hS1 _ _ (by rfl) (pconv_addTail_stop (by rfl))
              have hSu : ∀ r, PConv .unary (toksW 3 (.add a b) ++ r) (.finite q, r) :=
                fun r => pconv_unary_fall (by rfl) (hS3 r)
              exact ⟨hS1, hS2, hS3, hSu⟩
  | sub a b iha ihb =>
      intro q hwf hq
      rw [denote] at hq
      cases hda : denote a with
      | none => rw [hda] at hq; simp at hq
      | some qa =>
          cases hdb : denote b with
          | none => rw [hda, hdb] at hq; simp at hq
          | some qb =>
              rw [hda, hdb] at hq
              injection hq with hq1
              have hw : a.wf = true ∧ b.wf = true := by
                simp only [AExp.wf, Bool.and_eq_true] at hwf
                exact hwf
              obtain ⟨ha1, ha2, ha3, ha4⟩ := iha qa hw.1 hda
              obtain ⟨hb1, hb2, hb3, hb4⟩ := ihb qb hw.2 hdb
              have hS1 : ∀ r out, mulStop r = true → PConv (.addTail (.finite q)) r out →
                  PConv .addl (toksW 1 (.sub a b) ++ r) out := by
                intro r out hstop hc
                have hshape : toksW 1 (.sub a b) ++ r
                    = toksW 1 a ++ (.tsub :: (toksW 2 b ++ r)) := by
                  show (toksW 1 a ++ .tsub :: toksW 2 b) ++ r = _
                  rw [List.append_assoc]
                  rfl
                rw [hshape]
                refine ha1 _ _ (by rfl) ?_
                refine pconv_addTail_sub (hb2 r _ (pconv_mulTail_stop hstop)) ?_
                rw [jsSub_finite, hq1]
                exact hc
              have hS2 : ∀ r out, PConv (.mulTail (.finite q)) r out →
                  PConv .mull (toksW 2 (.sub a b) ++ r) out := by
                intro r out hc
                have hshape : toksW 2 (.sub a b) ++ r
                    = .tlp :: (toksOf (.sub a b) ++ (.trp :: r)) := by
                  show (.tlp :: (toksOf (.sub a b) ++ [.trp])) ++ r = _
                  rw [List.cons_append, List.append_assoc]
                  rfl
                rw [hshape]
                refine pconv_mull (pconv_unary_fall (by rfl) (pconv_prim_paren ?_)) hc
                have heq0 : toksOf (.sub a b) = toksW 1 (.sub a b) := rfl
                rw [heq0]
                exact hS1 _ _ (by rfl) (pconv_addTail_stop (by rfl))
              have hS3 : ∀ r, PConv .prim (toksW 3 (.sub a b) ++ r) (.finite q, r) := by
                intro r
                have hshape : toksW 3 (.sub a b) ++ r
                    = .tlp :: (toksOf (.sub a b) ++ (.trp :: r)) := by
                  show (.tlp :: (toksOf (.sub a b) ++ [.trp])) ++ r = _
                  rw [List.cons_append, List.append_assoc]
                  rfl
                rw [hshape]
                refine pconv_prim_paren ?_
                have heq0 : toksOf (.sub a b) = toksW 1 (.sub a b) := rfl
                rw [heq0]
                exact hS1 _ _ (by rfl) (pconv_addTail_stop (by rfl))
              have hSu : ∀ r, PConv .unary (toksW 3 (.sub a b) ++ r) (.finite q, r) :=
                fun r => pconv_unary_fall (by rfl) (hS3 r)
              exact ⟨hS1, hS2, hS3, hSu⟩
  | mul a b iha ihb =>
      intro q hwf hq
      rw [denote] at hq
      cases hda : denote a with
      | none => rw [hda] at hq; simp at hq
      | some qa =>
          cases hdb : denote b with
          | none => rw [hda, hdb] at hq; simp at hq
          | some qb =>
              rw [hda, hdb] at hq
              injection hq with hq1
              have hw : a.wf = true ∧ b.wf = true := by
                simp only [AExp.wf, Bool.and_eq_true] at hwf
                exact hwf
              obtain ⟨ha1, ha2, ha3, ha4⟩ := iha qa hw.1 hda
              obtain ⟨hb1, hb2, hb3, hb4⟩ := ihb qb hw.2 hdb
              have hS2 : ∀ r out, PConv (.mulTail (.finite q)) r out →
                  PConv .mull (toksW 2 (.mul a b) ++ r) out := by
                intro r out hc
                have hshape : toksW 2 (.mul a b) ++ r
                    = toksW 2 a ++ (.tmul :: (toksW 3 b ++ r)) := by
                  show (toksW 2 a ++ .tmul :: toksW 3 b) ++ r = _
                  rw [List.append_assoc]
                  rfl
                rw [hshape]
                refine ha2 _ _ ?_
                refine pconv_mulTail_mul (hb4 r) ?_
                rw [jsMul_finite, hq1]
                exact hc
              have hS1 : ∀ r out, mulStop r = true → PConv (.addTail (.finite q)) r out →
                  PConv .addl (toksW 1 (.mul a b) ++ r) out := by
                intro r out hstop hc
                have hsame : toksW 1 (.mul a b) = toksW 2 (.mul a b) := rfl
                rw [hsame]
                exact pconv_addl (hS2 r _ (pconv_mulTail_stop hstop)) hc
              have hS3 : ∀ r, PConv .prim (toksW 3 (.mul a b) ++ r) (.finite q, r) := by
                intro r
                have hshape : toksW 3 (.mul a b) ++ r
                    = .tlp :: (toksOf (.mul a b) ++ (.trp :: r)) := by
                  show (.tlp :: (toksOf (.mul a b) ++ [.trp])) ++ r = _
                  rw [List.cons_append, List.append_assoc]
                  rfl
                rw [hshape]
                refine pconv_prim_paren ?_
                have heq0 : toksOf (.mul a b) = toksW 1 (.mul a b) := rfl
                rw [heq0]
                exact hS1 _ _ (by rfl) (pconv_addTail_stop (by rfl))
              have hSu : ∀ r, PConv .unary (toksW 3 (.mul a b) ++ r) (.finite q, r) :=
                fun r => pconv_unary_fall (by rfl) (hS3 r)
              exact ⟨hS1, hS2, hS3, hSu⟩
  | div a b iha ihb =>
      intro q hwf hq
      rw [denote] at hq
      cases hda : denote a with
      | none => rw [hda] at hq; simp at hq
      | some qa =>
          cases hdb : denote b with
          | none => rw [hda, hdb] at hq; simp at hq
          | some qb =>
              rw [hda, hdb] at hq
              have hq2 : (if qb = 0 then (none : Option ℚ) else some (qa / qb)) = some q := hq
              by_cases hb0 : qb = 0
              · rw [if_pos hb0] at hq2
                cases hq2
              · rw [if_neg hb0] at hq2
                injection hq2 with hq1
                have hw : a.wf = true ∧ b.wf = true := by
                  simp only [AExp.wf, Bool.and_eq_true] at hwf
                  exact hwf
                obtain ⟨ha1, ha2, ha3, ha4⟩ := iha qa hw.1 hda
                obtain ⟨hb1, hb2, hb3, hb4⟩ := ihb qb hw.2 hdb
                have hS2 : ∀ r out, PConv (.mulTail (.finite q)) r out →
                    PConv .mull (toksW 2 (.div a b) ++ r) out := by
                  intro r out hc
                  have hshape : toksW 2 (.div a b) ++ r
                      = toksW 2 a ++ (.tdiv :: (toksW 3 b ++ r)) := by
                    show (toksW 2 a ++ .tdiv :: toksW 3 b) ++ r = _
                    rw [List.append_assoc]
                    rfl
                  rw [hshape]
                  refine ha2 _ _ ?_
                  refine pconv_mulTail_div (hb4 r) ?_
                  rw [jsDiv_finite _ _ hb0, hq1]
                  exact hc
                have hS1 : ∀ r out, mulStop r = true → PConv (.addTail (.finite q)) r out →
                    PConv .addl (toksW 1 (.div a b) ++ r) out := by
                  intro r out hstop hc
                  have hsame : toksW 1 (.div a b) = toksW 2 (.div a b) := rfl
                  rw [hsame]
                  exact pconv_addl (hS2 r _ (pconv_mulTail_stop hstop)) hc
                have hS3 : ∀ r, PConv .prim (toksW 3 (.div a b) ++ r) (.finite q, r) := by
                  intro r
                  have hshape : toksW 3 (.div a b) ++ r
                      = .tlp :: (toksOf (.div a b) ++ (.trp :: r)) := by
                    show (.tlp :: (toksOf (.div a b) ++ [.trp])) ++ r = _
                    rw [List.cons_append, List.append_assoc]
                    rfl
                  rw [hshape]
                  refine pconv_prim_paren ?_
                  have heq0 : toksOf (.div a b) = toksW 1 (.div a b) := rfl
                  rw [heq0]
                  exact hS1 _ _ (by rfl) (pconv_addTail_stop (by rfl))
                have hSu : ∀ r, PConv .unary (toksW 3 (.div a b) ++ r) (.finite q, r) :=
                  fun r => pconv_unary_fall (by rfl) (hS3 r)
                exact ⟨hS1, hS2, hS3, hSu⟩

theorem digitsF_lt : ∀ (f n : ℕ), ∀ d ∈ digitsF f n, d < 10 := by
  intro f
  induction f with
  | zero => intro n d hd; cases hd
  | succ f ih =>
      intro n d hd
      rw [digitsF] at hd
      by_cases h0 : n = 0
      · rw [if_pos h0] at hd; cases hd
      · rw [if_neg h0] at hd
        rcases List.mem_cons.mp hd with h | h
        · rw [h]; exact Nat.mod_lt _ (by omega)
        · exact ih _ _ h

theorem digitsF_val : ∀ (f n : ℕ), n ≤ f → valLE (digitsF f n) = n := by
  intro f
  induction f with
  | zero => intro n hn; interval_cases n; rfl
  | succ f ih =>
      intro n hn
      rw [digitsF]
      by_cases h0 : n = 0
      · rw [if_pos h0, valLE, h0]
      · rw [if_neg h0, valLE, ih (n / 10) (by
          have hlt : n / 10 < n := Nat.div_lt_self (Nat.pos_of_ne_zero h0) (by norm_num)
          omega)]
        omega

theorem digitsF_len_le : ∀ (f n k : ℕ), n < 10 ^ k → (digitsF f n).length ≤ k := by
  intro f
  induction f with
  | zero => intro n k h; simp [digitsF]
  | succ f ih =>
      intro n k h
      rw [digitsF]
      by_cases h0 : n = 0
      · rw [if_pos h0]; simp
      · rw [if_neg h0]
        cases k with
        | zero => exfalso; rw [pow_zero] at h; omega
        | succ k =>
            rw [List.length_cons]
            have hk : n / 10 < 10 ^ k := by
              rw [Nat.div_lt_iff_lt_mul (by omega)]
              calc n < 10 ^ (k + 1) := h
                _ = 10 ^ k * 10 := by ring
            exact Nat.succ_le_succ (ih _ _ hk)

theorem dval_chr : ∀ d : ℕ, d < 10 → dval (Char.ofNat (48 + d)) = d := by decide

theorem isDig_chr : ∀ d : ℕ, d < 10 → isDig (Char.ofNat (48 + d)) = true := by decide

theorem natChars_all_dig (n : ℕ) : (natChars n).all isDig = true := by
  rw [natChars]
  by_cases h0 : n = 0
  · rw [if_pos h0]; decide
  · rw [if_neg h0, List.all_eq_true]
    intro c hc
    rw [List.mem_reverse, List.mem_map] at hc
    obtain ⟨d, hd, rfl⟩ := hc
    exact isDig_chr d (digitsF_lt _ _ _ hd)

theorem natChars_ne_nil (n : ℕ) : natChars n ≠ [] := by
  rw [natChars]
  by_cases h0 : n = 0
  · rw [if_pos h0]; simp
  · rw [if_neg h0]
    intro h
    rw [List.reverse_eq_nil_iff, List.map_eq_nil] at h
    rw [digitsF, if_neg h0] at h
    cases h

theorem charsToNat_aux : ∀ (ds : List ℕ), (∀ d ∈ ds, d < 10) → ∀ a : ℕ,
    List.foldl (fun a c => 10 * a + dval c) a
      ((ds.map (fun d => Char.ofNat (48 + d))).reverse)
    = a * 10 ^ ds.length + valLE ds := by
  intro ds
  induction ds with
  | nil => intro h a; simp [valLE]
  | cons d t ih =>
      intro h a
      rw [List.map_cons, List.reverse_cons, List.foldl_append, List.foldl_cons,
        List.foldl_nil, ih (fun x hx => h x (List.mem_cons_of_mem d hx)),
        dval_chr d (h d (List.mem_cons_self d t)), valLE, List.length_cons]
      ring

theorem charsToNat_natChars (n : ℕ) : charsToNat (natChars n) = n := by
  rw [charsToNat, natChars]
  by_cases h0 : n = 0
  · rw [if_pos h0, h0]; rfl
  · rw [if_neg h0, charsToNat_aux _ (digitsF_lt _ _), digitsF_val _ _ (Nat.le_succ n)]
    omega

theorem foldl_rep0 : ∀ m : ℕ,
    List.foldl (fun a c => 10 * a + dval c) 0 (List.replicate m '0') = 0 := by
  intro m
  induction m with
  | zero => rfl
  | succ m ih => rw [List.replicate_succ, List.foldl_cons]; exact ih

theorem charsToNat_padZeros (k : ℕ) (l : List Char) :
    charsToNat (padZeros k l) = charsToNat l := by
  rw [charsToNat, charsToNat, padZeros, List.foldl_append, foldl_rep0]

theorem padZeros_all_dig (k : ℕ) (l : List Char) (h : l.all isDig = true) :
    (padZeros k l).all isDig = true := by
  rw [padZeros, List.all_append, h, Bool.and_true, List.all_eq_true]
  intro c hc
  rw [List.eq_of_mem_replicate hc]
  decide

theorem padZeros_len (k : ℕ) (l : List Char) (h : l.length ≤ k) :
    (padZeros k l).length = k := by
  rw [padZeros, List.length_append, List.length_replicate]
  omega

theorem padZeros_ne_nil (k : ℕ) (l : List Char) (h : 0 < k) : padZeros k l ≠ [] := by
  intro he
  have := congrArg List.length he
  rw [padZeros, List.length_append, List.length_replicate, List.length_nil] at this
  omega

theorem natChars_len_le (n k : ℕ) (h : n < 10 ^ k) (hk : 0 < k) :
    (natChars n).length ≤ k := by
  rw [natChars]
  by_cases h0 : n = 0
  · rw [if_pos h0]; simpa using hk
  · rw [if_neg h0, List.length_reverse, List.length_map]
    exact digitsF_len_le _ _ _ h

theorem isDig_ne {c d : Char} (h : isDig c = true) (hd : isDig d = false) : ¬ c = d := by
  intro he
  rw [he, hd] at h
  cases h

theorem all_dropWhile_append {p : Char → Bool} : ∀ (l r : List Char), l.all p = true →
    (l ++ r).dropWhile p = r.dropWhile p := by
  intro l
  induction l with
  | nil => intro r h; rfl
  | cons c t ih =>
      intro r h
      rw [List.all_cons, Bool.and_eq_true] at h
      rw [List.cons_append, List.dropWhile_cons, if_pos h.1]
      exact ih r h.2

theorem all_takeWhile_append {p : Char → Bool} : ∀ (l r : List Char), l.all p = true →
    (l ++ r).takeWhile p = l ++ r.takeWhile p := by
  intro l
  induction l with
  | nil => intro r h; rfl
  | cons c t ih =>
      intro r h
      rw [List.all_cons, Bool.and_eq_true] at h
      rw [List.cons_append, List.takeWhile_cons, if_pos h.1, ih r h.2, List.cons_append]

theorem restOk_dropWhile_dig {rest : List Char} (h : restOk rest = true) :
    rest.dropWhile isDig = rest := by
  cases rest with
  | nil => rfl
  | cons c t =>
      have hdc : isDig c = false := by
        cases hid : isDig c
        · rfl
        · rw [restOk, hid] at h; simp at h
      rw [List.dropWhile_cons, if_neg (by rw [hdc]; exact Bool.false_ne_true)]

theorem restOk_takeWhile_dig {rest : List Char} (h : restOk rest = true) :
    rest.takeWhile isDig = [] := by
  cases rest with
  | nil => rfl
  | cons c t =>
      have hdc : isDig c = false := by
        cases hid : isDig c
        · rfl
        · rw [restOk, hid] at h; simp at h
      rw [List.takeWhile_cons, if_neg (by rw [hdc]; exact Bool.false_ne_true)]
theorem tokStep_lp (f : ℕ) (t : List Char) :
    jsTokenize (f + 1) ('(' :: t) = (jsTokenize f t).map (fun ts => .tlp :: ts) := rfl

theorem tokStep_rp (f : ℕ) (t : List Char) :
    jsTokenize (f + 1) (')' :: t) = (jsTokenize f t).map (fun ts => .trp :: ts) := rfl

theorem tokStep_div (f : ℕ) (t : List Char) :
    jsTokenize (f + 1) ('/' :: t) = (jsTokenize f t).map (fun ts => .tdiv :: ts) := rfl

theorem tokStep_add (f : ℕ) (c : Char) (u : List Char) (h : ¬ c = '+') :
    jsTokenize (f + 1) ('+' :: c :: u)
      = (jsTokenize f (c :: u)).map (fun ts => .tadd :: ts) := by
  simp only [jsTokenize]
  rw [if_neg (by decide : ¬ isWsChar '+' = true), if_pos trivial]
  split
  next u2 heq =>
    exfalso
    injection heq with h1 h2
    exact h h1
  next => rfl

theorem tokStep_sub (f : ℕ) (c : Char) (u : List Char) (h : ¬ c = '-') :
    jsTokenize (f + 1) ('-' :: c :: u)
      = (jsTokenize f (c :: u)).map (fun ts => .tsub :: ts) := by
  simp only [jsTokenize]
  rw [if_neg (by decide : ¬ isWsChar '-' = true), if_neg (by decide : ¬ ('-' : Char) = '+'),
    if_pos trivial]
  split
  next u2 heq =>
    exfalso
    injection heq with h1 h2
    exact h h1
  next => rfl

theorem tokStep_mul (f : ℕ) (c : Char) (u : List Char) (h : ¬ c = '*') :
    jsTokenize (f + 1) ('*' :: c :: u)
      = (jsTokenize f (c :: u)).map (fun ts => .tmul :: ts) := by
  simp only [jsTokenize]
  rw [if_neg (by decide : ¬ isWsChar '*' = true), if_neg (by decide : ¬ ('*' : Char) = '+'),
    if_neg (by decide : ¬ ('*' : Char) = '-'), if_pos trivial]
  split
  next u2 heq =>
    exfalso
    injection heq with h1 h2
    exact h h1
  next => rfl

theorem isDig_ws {c : Char} (h : isDig c = true) : ¬ isWsChar c = true := by
  intro hw
  rw [isWsChar] at hw
  simp only [Bool.or_eq_true, decide_eq_true_eq] at hw
  rcases hw with ((rfl | rfl) | rfl) | rfl <;> exact absurd h (by decide)

theorem tokStep_num_int (f : ℕ) (l rest : List Char) (hne : l ≠ [])
    (hall : l.all isDig = true) (hrest : restOk rest = true) :
    jsTokenize (f + 1) (l ++ rest)
      = (jsTokenize f rest).map (fun ts => .num (numLit l []) :: ts) := by
  obtain ⟨c, t, rfl⟩ : ∃ c t, l = c :: t := by
    cases l with
    | nil => exact absurd rfl hne
    | cons c t => exact ⟨c, t, rfl⟩
  have hall2 := hall
  rw [List.all_cons, Bool.and_eq_true] at hall2
  rw [List.cons_append]
  simp only [jsTokenize]
  rw [if_neg (isDig_ws hall2.1), if_neg (isDig_ne hall2.1 (by decide)),
    if_neg (isDig_ne hall2.1 (by decide)), if_neg (isDig_ne hall2.1 (by decide)),
    if_neg (isDig_ne hall2.1 (by decide)), if_neg (isDig_ne hall2.1 (by decide)),
    if_neg (isDig_ne hall2.1 (by decide)), if_pos hall2.1]
  have hdw : (c :: (t ++ rest)).dropWhile isDig = rest := by
    rw [← List.cons_append, all_dropWhile_append _ _ hall, restOk_dropWhile_dig hrest]
  have htw : (c :: (t ++ rest)).takeWhile isDig = c :: t := by
    rw [← List.cons_append, all_takeWhile_append _ _ hall, restOk_takeWhile_dig hrest,
      List.append_nil]
  rw [hdw, htw]
  split
  · simp [restOk] at hrest
  · rfl

theorem tokStep_num_dec (f : ℕ) (l1 l2 rest : List Char) (h1 : l1 ≠ []) (h2 : l2 ≠ [])
    (ha1 : l1.all isDig = true) (ha2 : l2.all isDig = true) (hrest : restOk rest = true) :
    jsTokenize (f + 1) (l1 ++ '.' :: (l2 ++ rest))
      = (jsTokenize f rest).map (fun ts => .num (numLit l1 l2) :: ts) := by
  obtain ⟨c, t, rfl⟩ : ∃ c t, l1 = c :: t := by
    cases l1 with
    | nil => exact absurd rfl h1
    | cons c t => exact ⟨c, t, rfl⟩
  have hall2 := ha1
  rw [List.all_cons, Bool.and_eq_true] at hall2
  rw [List.cons_append]
  simp only [jsTokenize]
  rw [if_neg (isDig_ws hall2.1), if_neg (isDig_ne hall2.1 (by decide)),
    if_neg (isDig_ne hall2.1 (by decide)), if_neg (isDig_ne hall2.1 (by decide)),
    if_neg (isDig_ne hall2.1 (by decide)), if_neg (isDig_ne hall2.1 (by decide)),
    if_neg (isDig_ne hall2.1 (by decide)), if_pos hall2.1]
  have hdw : (c :: (t ++ '.' :: (l2 ++ rest))).dropWhile isDig = '.' :: (l2 ++ rest) := by
    rw [← List.cons_append, all_dropWhile_append _ _ ha1, List.dropWhile_cons,
      if_neg (by decide : ¬ isDig '.' = true)]
  have htw : (c :: (t ++ '.' :: (l2 ++ rest))).takeWhile isDig = c :: t := by
    rw [← List.cons_append, all_takeWhile_append _ _ ha1, List.takeWhile_cons,
      if_neg (by decide : ¬ isDig '.' = true), List.append_nil]
  rw [hdw, htw]
  split
  · rename_i u heq
    injection heq with hd1 hd2
    subst hd2
    rw [all_dropWhile_append _ _ ha2, restOk_dropWhile_dig hrest,
      all_takeWhile_append _ _ ha2, restOk_takeWhile_dig hrest, List.append_nil]
  · rename_i hne2
    exact (hne2 (l2 ++ rest) rfl).elim

theorem wrapIf_false (l : List Char) : wrapIf false l = l := rfl

theorem wrapIf_true (l : List Char) : wrapIf true l = '(' :: (l ++ [')']) := rfl

theorem wrapT_false (l : List JTok) : wrapT false l = l := rfl

theorem wrapT_true (l : List JTok) : wrapT true l = .tlp :: (l ++ [.trp]) := rfl

theorem one_le_prec : ∀ e : AExp, 1 ≤ prec e := by
  intro e
  cases e <;> simp [prec]

theorem renderAsc_head : ∀ e : AExp, ∃ c t, renderAsc e = c :: t ∧ (isDig c = true ∨ c = '(') := by
  intro e
  induction e with
  | lit n =>
      obtain ⟨c, t, hct⟩ : ∃ c t, natChars n = c :: t := by
        cases hn : natChars n with
        | nil => exact absurd hn (natChars_ne_nil n)
        | cons c t => exact ⟨c, t, rfl⟩
      refine ⟨c, t, hct, Or.inl ?_⟩
      have hall := natChars_all_dig n
      rw [hct, List.all_cons, Bool.and_eq_true] at hall
      exact hall.1
  | dec n f k =>
      obtain ⟨c, t, hct⟩ : ∃ c t, natChars n = c :: t := by
        cases hn : natChars n with
        | nil => exact absurd hn (natChars_ne_nil n)
        | cons c t => exact ⟨c, t, rfl⟩
      refine ⟨c, t ++ '.' :: padZeros k (natChars f), ?_, Or.inl ?_⟩
      · rw [renderAsc, hct, List.cons_append]
      · have hall := natChars_all_dig n
        rw [hct, List.all_cons, Bool.and_eq_true] at hall
        exact hall.1
  | add a b iha ihb =>
      have hfa : decide (prec a < 1) = false := decide_eq_false (Nat.not_lt.mpr (one_le_prec a))
      obtain ⟨c, t, hct, hd⟩ := iha
      refine ⟨c, t ++ '+' :: wrapIf (decide (prec b < 2)) (renderAsc b), ?_, hd⟩
      rw [renderAsc, hfa, wrapIf_false, hct, List.cons_append]
  | sub a b iha ihb =>
      have hfa : decide (prec a < 1) = false := decide_eq_false (Nat.not_lt.mpr (one_le_prec a))
      obtain ⟨c, t, hct, hd⟩ := iha
      refine ⟨c, t ++ '-' :: wrapIf (decide (prec b < 2)) (renderAsc b), ?_, hd⟩
      rw [renderAsc, hfa, wrapIf_false, hct, List.cons_append]
  | mul a b iha ihb =>
      cases hp : decide (prec a < 2) with
      | true =>
          refine ⟨'(', (renderAsc a ++ [')']) ++ '*' :: wrapIf (decide (prec b < 3)) (renderAsc b),
            ?_, Or.inr rfl⟩
          rw [renderAsc, hp, wrapIf_true, List.cons_append]
      | false =>
          obtain ⟨c, t, hct, hd⟩ := iha
          refine ⟨c, t ++ '*' :: wrapIf (decide (prec b < 3)) (renderAsc b), ?_, hd⟩
          rw [renderAsc, hp, wrapIf_false, hct, List.cons_append]
  | div a b iha ihb =>
      cases hp : decide (prec a < 2) with
      | true =>
          refine ⟨'(', (renderAsc a ++ [')']) ++ '/' :: wrapIf (decide (prec b < 3)) (renderAsc b),
            ?_, Or.inr rfl⟩
          rw [renderAsc, hp, wrapIf_true, List.cons_append]
      | false =>
          obtain ⟨c, t, hct, hd⟩ := iha
          refine ⟨c, t ++ '/' :: wrapIf (decide (prec b < 3)) (renderAsc b), ?_, hd⟩
          rw [renderAsc, hp, wrapIf_false, hct, List.cons_append]

theorem rendW_head (ctx : ℕ) (e : AExp) :
    ∃ c t, rendW ctx e = c :: t ∧ (isDig c = true ∨ c = '(') := by
  cases hp : decide (prec e < ctx) with
  | true =>
      refine ⟨'(', renderAsc e ++ [')'], ?_, Or.inr rfl⟩
      rw [rendW, hp, wrapIf_true]
  | false =>
      obtain ⟨c, t, hct, hd⟩ := renderAsc_head e
      refine ⟨c, t, ?_, hd⟩
      rw [rendW, hp, wrapIf_false, hct]

theorem wrap_len_le {lt : List JTok} {lc : List Char} (b : Bool) (h : lt.length ≤ lc.length) :
    (wrapT b lt).length ≤ (wrapIf b lc).length := by
  cases b
  · rw [wrapT_false, wrapIf_false]; exact h
  · rw [wrapT_true, wrapIf_true, List.length_cons, List.length_cons,
      List.length_append, List.length_append, List.length_singleton, List.length_singleton]
    omega

theorem toks_len_le : ∀ e : AExp, (toksOf e).length ≤ (renderAsc e).length := by
  intro e
  induction e with
  | lit n =>
      rw [toksOf]
      exact List.length_pos.mpr (natChars_ne_nil n)
  | dec n f k =>
      rw [toksOf, renderAsc, List.length_singleton, List.length_append, List.length_cons]
      omega
  | add a b iha ihb =>
      rw [toksOf, renderAsc, List.length_append, List.length_cons,
        List.length_append, List.length_cons]
      have h1 := wrap_len_le (decide (prec a < 1)) iha
      have h2 := wrap_len_le (decide (prec b < 2)) ihb
      omega
  | sub a b iha ihb =>
      rw [toksOf, renderAsc, List.length_append, List.length_cons,
        List.length_append, List.length_cons]
      have h1 := wrap_len_le (decide (prec a < 1)) iha
      have h2 := wrap_len_le (decide (prec b < 2)) ihb
      omega
  | mul a b iha ihb =>
      rw [toksOf, renderAsc, List.length_append, List.length_cons,
        List.length_append, List.length_cons]
      have h1 := wrap_len_le (decide (prec a < 2)) iha
      have h2 := wrap_len_le (decide (prec b < 3)) ihb
      omega
  | div a b iha ihb =>
      rw [toksOf, renderAsc, List.length_append, List.length_cons,
        List.length_append, List.length_cons]
      have h1 := wrap_len_le (decide (prec a < 2)) iha
      have h2 := wrap_len_le (decide (prec b < 3)) ihb
      omega

theorem numLit_natChars (n : ℕ) : numLit (natChars n) [] = ((n : ℕ) : ℚ) := by
  rw [numLit, charsToNat_natChars]
  norm_num [mkQ_eq, charsToNat]

theorem tok_wrap_of (e : AExp)
    (h0 : ∀ (f : ℕ) (rest : List Char), restOk rest = true →
      jsTokenize ((toksOf e).length + f) (renderAsc e ++ rest)
        = (jsTokenize f rest).map (fun ts => toksOf e ++ ts)) :
    ∀ (b : Bool) (f : ℕ) (rest : List Char), restOk rest = true →
      jsTokenize ((wrapT b (toksOf e)).length + f) (wrapIf b (renderAsc e) ++ rest)
        = (jsTokenize f rest).map (fun ts => wrapT b (toksOf e) ++ ts) := by
  intro b f rest hrest
  cases b with
  | false => exact h0 f rest hrest
  | true =>
      have hlen : (wrapT true (toksOf e)).length + f = ((toksOf e).length + (1 + f)) + 1 := by
        rw [wrapT_true, List.length_cons, List.length_append, List.length_singleton]
        omega
      have hsh : wrapIf true (renderAsc e) ++ rest = '(' :: (renderAsc e ++ (')' :: rest)) := by
        rw [wrapIf_true, List.cons_append, List.append_assoc, List.singleton_append]
      rw [hlen, hsh, tokStep_lp, h0 (1 + f) (')' :: rest) (by rfl),
        Nat.add_comm 1 f, tokStep_rp]
      cases jsTokenize f rest with
      | none => rfl
      | some ts => simp [wrapT_true, List.append_assoc]

theorem tok_render0 : ∀ (e : AExp), e.wf = true →
    ∀ (f : ℕ) (rest : List Char), restOk rest = true →
    jsTokenize ((toksOf e).length + f) (renderAsc e ++ rest)
      = (jsTokenize f rest).map (fun ts => toksOf e ++ ts) := by
  intro e
  induction e with
  | lit n =>
      intro hwf fu rest hrest
      have hfl : (toksOf (AExp.lit n)).length + fu = fu + 1 := by
        rw [toksOf, List.length_singleton]; omega
      rw [hfl, renderAsc,
        tokStep_num_int fu (natChars n) rest (natChars_ne_nil n) (natChars_all_dig n) hrest,
        numLit_natChars]
      rfl
  | dec n f k =>
      intro hwf fu rest hrest
      simp only [AExp.wf, Bool.and_eq_true, decide_eq_true_eq] at hwf
      have hfl : (toksOf (AExp.dec n f k)).length + fu = fu + 1 := by
        rw [toksOf, List.length_singleton]; omega
      have hsh : renderAsc (AExp.dec n f k) ++ rest
          = natChars n ++ '.' :: (padZeros k (natChars f) ++ rest) := by
        rw [renderAsc, List.append_assoc, List.cons_append]
      rw [hfl, hsh,
        tokStep_num_dec fu (natChars n) (padZeros k (natChars f)) rest (natChars_ne_nil n)
          (padZeros_ne_nil k _ hwf.1) (natChars_all_dig n)
          (padZeros_all_dig k _ (natChars_all_dig f)) hrest]
      have hlen : (padZeros k (natChars f)).length = k :=
        padZeros_len k _ (natChars_len_le f k hwf.2 hwf.1)
      have hv : numLit (natChars n) (padZeros k (natChars f))
          = mkQ ((n * 10 ^ k + f : ℕ) : Int) (10 ^ k) := by
        rw [numLit, charsToNat_natChars, charsToNat_padZeros, charsToNat_natChars, hlen]
      rw [hv]
      rfl
  | add a b iha ihb =>
      intro hwf fu rest hrest
      simp only [AExp.wf, Bool.and_eq_true] at hwf
      have ha := tok_wrap_of a (iha hwf.1)
      have hb := tok_wrap_of b (ihb hwf.2)
      have hsh : renderAsc (AExp.add a b) ++ rest
          = wrapIf (decide (prec a < 1)) (renderAsc a)
            ++ ('+' :: (wrapIf (decide (prec b < 2)) (renderAsc b) ++ rest)) := by
        show (wrapIf (decide (prec a < 1)) (renderAsc a)
            ++ '+' :: wrapIf (decide (prec b < 2)) (renderAsc b)) ++ rest = _
        rw [List.append_assoc]
        rfl
      have hfl : (toksOf (AExp.add a b)).length + fu
          = (wrapT (decide (prec a < 1)) (toksOf a)).length
            + (1 + ((wrapT (decide (prec b < 2)) (toksOf b)).length + fu)) := by
        rw [toksOf, List.length_append, List.length_cons]
        omega
      rw [hsh, hfl,
        ha (decide (prec a < 1)) (1 + ((wrapT (decide (prec b < 2)) (toksOf b)).length + fu))
          ('+' :: (wrapIf (decide (prec b < 2)) (renderAsc b) ++ rest)) (by rfl)]
      obtain ⟨c, t2, hcb, hdisj⟩ := rendW_head 2 b
      have hcb2 : wrapIf (decide (prec b < 2)) (renderAsc b) ++ rest = c :: (t2 ++ rest) := by
        rw [show wrapIf (decide (prec b < 2)) (renderAsc b) = rendW 2 b from rfl, hcb,
          List.cons_append]
      have hcne : ¬ c = '+' := by
        rcases hdisj with hd | hd
        · exact isDig_ne hd (by decide)
        · rw [hd]; decide
      rw [hcb2, Nat.add_comm 1 ((wrapT (decide (prec b < 2)) (toksOf b)).length + fu),
        tokStep_add _ _ _ hcne, ← hcb2, hb (decide (prec b < 2)) fu rest hrest]
      cases jsTokenize fu rest with
      | none => rfl
      | some ts => simp [toksOf, List.append_assoc]
  | sub a b iha ihb =>
      intro hwf fu rest hrest
      simp only [AExp.wf, Bool.and_eq_true] at hwf
      have ha := tok_wrap_of a (iha hwf.1)
      have hb := tok_wrap_of b (ihb hwf.2)
      have hsh : renderAsc (AExp.sub a b) ++ rest
          = wrapIf (decide (prec a < 1)) (renderAsc a)
            ++ ('-' :: (wrapIf (decide (prec b < 2)) (renderAsc b) ++ rest)) := by
        show (wrapIf (decide (prec a < 1)) (renderAsc a)
            ++ '-' :: wrapIf (decide (prec b < 2)) (renderAsc b)) ++ rest = _
        rw [List.append_assoc]
        rfl
      have hfl : (toksOf (AExp.sub a b)).length + fu
          = (wrapT (decide (prec a < 1)) (toksOf a)).length
            + (1 + ((wrapT (decide (prec b < 2)) (toksOf b)).length + fu)) := by
        rw [toksOf, List.length_append, List.length_cons]
        omega
      rw [hsh, hfl,
        ha (decide (prec a < 1)) (1 + ((wrapT (decide (prec b < 2)) (toksOf b)).length + fu))
          ('-' :: (wrapIf (decide (prec b < 2)) (renderAsc b) ++ rest)) (by rfl)]
      obtain ⟨c, t2, hcb, hdisj⟩ := rendW_head 2 b
      have hcb2 : wrapIf (decide (prec b < 2)) (renderAsc b) ++ rest = c :: (t2 ++ rest) := by
        rw [show wrapIf (decide (prec b < 2)) (renderAsc b) = rendW 2 b from rfl, hcb,
          List.cons_append]
      have hcne : ¬ c = '-' := by
        rcases hdisj with hd | hd
        · exact isDig_ne hd (by decide)
        · rw [hd]; decide
      rw [hcb2, Nat.add_comm 1 ((wrapT (decide (prec b < 2)) (toksOf b)).length + fu),
        tokStep_sub _ _ _ hcne, ← hcb2, hb (decide (prec b < 2)) fu rest hrest]
      cases jsTokenize fu rest with
      | none => rfl
      | some ts => simp [toksOf, List.append_assoc]
  | mul a b iha ihb =>
      intro hwf fu rest hrest
      simp only [AExp.wf, Bool.and_eq_true] at hwf
      have ha := tok_wrap_of a (iha hwf.1)
      have hb := tok_wrap_of b (ihb hwf.2)
      have hsh : renderAsc (AExp.mul a b) ++ rest
          = wrapIf (decide (prec a < 2)) (renderAsc a)
            ++ ('*' :: (wrapIf (decide (prec b < 3)) (renderAsc b) ++ rest)) := by
        show (wrapIf (decide (prec a < 2)) (renderAsc a)
            ++ '*' :: wrapIf (decide (prec b < 3)) (renderAsc b)) ++ rest = _
        rw [List.append_assoc]
        rfl
      have hfl : (toksOf (AExp.mul a b)).length + fu
          = (wrapT (decide (prec a < 2)) (toksOf a)).length
            + (1 + ((wrapT (decide (prec b < 3)) (toksOf b)).length + fu)) := by
        rw [toksOf, List.length_append, List.length_cons]
        omega
      rw [hsh, hfl,
        ha (decide (prec a < 2)) (1 + ((wrapT (decide (prec b < 3)) (toksOf b)).length + fu))
          ('*' :: (wrapIf (decide (prec b < 3)) (renderAsc b) ++ rest)) (by rfl)]
      obtain ⟨c, t2, hcb, hdisj⟩ := rendW_head 3 b
      have hcb2 : wrapIf (decide (prec b < 3)) (renderAsc b) ++ rest = c :: (t2 ++ rest) := by
        rw [show wrapIf (decide (prec b < 3)) (renderAsc b) = rendW 3 b from rfl, hcb,
          List.cons_append]
      have hcne : ¬ c = '*' := by
        rcases hdisj with hd | hd
        · exact isDig_ne hd (by decide)
        · rw [hd]; decide
      rw [hcb2, Nat.add_comm 1 ((wrapT (decide (prec b < 3)) (toksOf b)).length + fu),
        tokStep_mul _ _ _ hcne, ← hcb2, hb (decide (prec b < 3)) fu rest hrest]
      cases jsTokenize fu rest with
      | none => rfl
      | some ts => simp [toksOf, List.append_assoc]
  | div a b iha ihb =>
      intro hwf fu rest hrest
      simp only [AExp.wf, Bool.and_eq_true] at hwf
      have ha := tok_wrap_of a (iha hwf.1)
      have hb := tok_wrap_of b (ihb hwf.2)
      have hsh : renderAsc (AExp.div a b) ++ rest
          = wrapIf (decide (prec a < 2)) (renderAsc a)
            ++ ('/' :: (wrapIf (decide (prec b < 3)) (renderAsc b) ++ rest)) := by
        show (wrapIf (decide (prec a < 2)) (renderAsc a)
            ++ '/' :: wrapIf (decide (prec b < 3)) (renderAsc b)) ++ rest = _
        rw [List.append_assoc]
        rfl
      have hfl : (toksOf (AExp.div a b)).length + fu
          = (wrapT (decide (prec a < 2)) (toksOf a)).length
            + (((wrapT (decide (prec b < 3)) (toksOf b)).length + fu) + 1) := by
        rw [toksOf, List.length_append, List.length_cons]
        omega
      rw [hsh, hfl,
        ha (decide (prec a < 2)) (((wrapT (decide (prec b < 3)) (toksOf b)).length + fu) + 1)
          ('/' :: (wrapIf (decide (prec b < 3)) (renderAsc b) ++ rest)) (by rfl),
        tokStep_div, hb (decide (prec b < 3)) fu rest hrest]
      cases jsTokenize fu rest with
      | none => rfl
      | some ts => simp [toksOf, List.append_assoc]

theorem tokenize_render (e : AExp) (hwf : e.wf = true) :
    jsTokenize ((renderAsc e).length + 1) (renderAsc e) = some (toksOf e) := by
  have hle := toks_len_le e
  have h := tok_render0 e hwf (((renderAsc e).length - (toksOf e).length) + 1) [] rfl
  rw [List.append_nil] at h
  have hfe : (toksOf e).length + (((renderAsc e).length - (toksOf e).length) + 1)
      = (renderAsc e).length + 1 := by omega
  rw [hfe] at h
  rw [h, show jsTokenize (((renderAsc e).length - (toksOf e).length) + 1) [] = some [] from rfl,
    Option.map_some']
  rw [List.append_nil]

theorem toksW_one (e : AExp) : toksW 1 e = toksOf e := by
  cases e <;> rfl

theorem jsEval_render (e : AExp) (q : ℚ) (hwf : e.wf = true) (hq : denote e = some q) :
    jsEval (renderAsc e) = some (.finite q) := by
  obtain ⟨hS1, -, -, -⟩ := parse_toks e q hwf hq
  have hc : PConv .addl (toksW 1 e ++ []) (.finite q, []) :=
    hS1 [] (.finite q, []) rfl (pconv_addTail_stop rfl)
  rw [List.append_nil, toksW_one] at hc
  obtain ⟨n, hn⟩ := hc
  have h2 := parseE_bound n .addl (toksOf e) (.finite q, []) (hn n le_rfl)
  have h3 : parseE (8 * (toksOf e).length + 8) .addl (toksOf e) = some (.finite q, []) :=
    parseE_le (by simp only [pRank]; omega) h2
  simp only [jsEval, tokenize_render e hwf, h3]

theorem allowed_of_dig {c : Char} (h : isDig c = true) : allowedChar c = true := by
  rw [allowedChar, h]
  rfl

theorem all_allowed_of_all_dig {l : List Char} (h : l.all isDig = true) :
    l.all allowedChar = true := by
  rw [List.all_eq_true] at h ⊢
  intro c hc
  exact allowed_of_dig (h c hc)

theorem wrapIf_all {l : List Char} (b : Bool) (h : l.all allowedChar = true) :
    (wrapIf b l).all allowedChar = true := by
  cases b
  · rw [wrapIf_false]; exact h
  · rw [wrapIf_true, List.all_cons, List.all_append, h]
    rfl

theorem renderAsc_allowed : ∀ e : AExp, (renderAsc e).all allowedChar = true := by
  intro e
  induction e with
  | lit n =>
      rw [renderAsc]
      exact all_allowed_of_all_dig (natChars_all_dig n)
  | dec n f k =>
      rw [renderAsc, List.all_append, List.all_cons,
        all_allowed_of_all_dig (natChars_all_dig n),
        all_allowed_of_all_dig (padZeros_all_dig k _ (natChars_all_dig f))]
      rfl
  | add a b iha ihb =>
      rw [renderAsc, List.all_append, List.all_cons, wrapIf_all _ iha, wrapIf_all _ ihb]
      rfl
  | sub a b iha ihb =>
      rw [renderAsc, List.all_append, List.all_cons, wrapIf_all _ iha, wrapIf_all _ ihb]
      rfl
  | mul a b iha ihb =>
      rw [renderAsc, List.all_append, List.all_cons, wrapIf_all _ iha, wrapIf_all _ ihb]
      rfl
  | div a b iha ihb =>
      rw [renderAsc, List.all_append, List.all_cons, wrapIf_all _ iha, wrapIf_all _ ihb]
      rfl

theorem renderAsc_ne_nil (e : AExp) : renderAsc e ≠ [] := by
  obtain ⟨c, t, hct, -⟩ := renderAsc_head e
  rw [hct]
  exact List.cons_ne_nil c t

theorem safeEval_render (e : AExp) (q : ℚ) (hwf : e.wf = true) (hq : denote e = some q) :
    safeEval ⟨renderAsc e⟩ = .ok (.finite q) := by
  rw [safeEval]
  rw [if_pos (by
    refine ⟨renderAsc_ne_nil e, ?_⟩
    exact renderAsc_allowed e)]
  rw [safeEvalSubst_id (renderAsc_allowed e), jsEval_render e q hwf hq]
  rfl

theorem dig_disp {c : Char} (h : isDig c = true) : dispChar c = true := by
  rw [dispChar, h]
  rfl

theorem all_disp_of_all_dig {l : List Char} (h : l.all isDig = true) :
    l.all dispChar = true := by
  rw [List.all_eq_true] at h ⊢
  intro c hc
  exact dig_disp (h c hc)

theorem wrapIf_disp {l : List Char} (b : Bool) (h : l.all dispChar = true) :
    (wrapIf b l).all dispChar = true := by
  cases b
  · rw [wrapIf_false]; exact h
  · rw [wrapIf_true, List.all_cons, List.all_append, h]
    rfl

theorem renderC_disp : ∀ e : AExp, (renderC e).all dispChar = true := by
  intro e
  induction e with
  | lit n =>
      rw [renderC]
      exact all_disp_of_all_dig (natChars_all_dig n)
  | dec n f k =>
      rw [renderC, List.all_append, List.all_cons,
        all_disp_of_all_dig (natChars_all_dig n),
        all_disp_of_all_dig (padZeros_all_dig k _ (natChars_all_dig f))]
      rfl
  | add a b iha ihb =>
      rw [renderC, List.all_append, List.all_cons, wrapIf_disp _ iha, wrapIf_disp _ ihb]
      rfl
  | sub a b iha ihb =>
      rw [renderC, List.all_append, List.all_cons, wrapIf_disp _ iha, wrapIf_disp _ ihb]
      rfl
  | mul a b iha ihb =>
      rw [renderC, List.all_append, List.all_cons, wrapIf_disp _ iha, wrapIf_disp _ ihb]
      rfl
  | div a b iha ihb =>
      rw [renderC, List.all_append, List.all_cons, wrapIf_disp _ iha, wrapIf_disp _ ihb]
      rfl

theorem disp_not_ws {c : Char} (h : dispChar c = true) : isWsChar c = false := by
  cases hw : isWsChar c
  · rfl
  · exfalso
    rw [isWsChar] at hw
    simp only [Bool.or_eq_true, decide_eq_true_eq] at hw
    rcases hw with ((rfl | rfl) | rfl) | rfl <;> exact absurd h (by decide)

theorem dropWhile_eq_self_of_none {p : Char → Bool} (l : List Char)
    (h : ∀ c ∈ l, p c = false) : l.dropWhile p = l := by
  cases l with
  | nil => rfl
  | cons c t =>
      rw [List.dropWhile_cons,
        if_neg (by rw [h c (List.mem_cons_self c t)]; exact Bool.false_ne_true)]

theorem jsTrim_id {l : List Char} (h : ∀ c ∈ l, isWsChar c = false) :
    (jsTrim ⟨l⟩).data = l := by
  rw [jsTrim]
  show ((List.dropWhile isWsChar l).reverse.dropWhile isWsChar).reverse = l
  rw [dropWhile_eq_self_of_none l h,
    dropWhile_eq_self_of_none l.reverse (fun c hc => h c (List.mem_reverse.mp hc)),
    List.reverse_reverse]

theorem matchNumLit_rest {l numc r1 : List Char} (h : matchNumLit l = some (numc, r1)) :
    ∀ x ∈ r1, x ∈ l := by
  rw [matchNumLit] at h
  split at h
  · cases h
  · split at h
    · rename_i u heq
      split at h
      · simp only [Option.some.injEq, Prod.mk.injEq] at h
        obtain ⟨-, rfl⟩ := h
        exact fun x hx => (List.dropWhile_sublist _).subset hx
      · simp only [Option.some.injEq, Prod.mk.injEq] at h
        obtain ⟨-, rfl⟩ := h
        intro x hx
        have hx2 : x ∈ u := (List.dropWhile_sublist _).subset hx
        have hx3 : x ∈ l.dropWhile isDig := by
          rw [heq]
          exact List.mem_cons_of_mem _ hx2
        exact (List.dropWhile_sublist _).subset hx3
    · simp only [Option.some.injEq, Prod.mk.injEq] at h
      obtain ⟨-, rfl⟩ := h
      rename_i heq2
      exact fun x hx => (List.dropWhile_sublist _).subset hx

theorem tryPowMatch_none {l : List Char} (h : '^' ∉ l) : tryPowMatch l = none := by
  rw [tryPowMatch]
  split
  · rfl
  · rename_i numc r1 hm
    have hsub := matchNumLit_rest hm
    split
    · rename_i r2 heq
      exfalso
      apply h
      apply hsub
      apply (List.dropWhile_sublist _).subset
      rw [heq]
      exact List.mem_cons_self _ _
    · rfl

theorem tryPctMatch_none {l : List Char} (h : '%' ∉ l) : tryPctMatch l = none := by
  rw [tryPctMatch]
  split
  · rfl
  · rename_i numc r1 hm
    have hsub := matchNumLit_rest hm
    split
    · rename_i r2 heq
      exfalso
      apply h
      apply hsub
      apply (List.dropWhile_sublist _).subset
      rw [heq]
      exact List.mem_cons_self _ _
    · rfl

theorem powScan_id : ∀ (f : ℕ) (l : List Char), '^' ∉ l → powScan f l = l := by
  intro f
  induction f with
  | zero => intro l h; rfl
  | succ f ih =>
      intro l h
      cases l with
      | nil => rfl
      | cons c t =>
          rw [powScan]
          simp only [tryPowMatch_none h]
          rw [ih t (fun hm => h (List.mem_cons_of_mem c hm))]

theorem pctScan_id : ∀ (f : ℕ) (l : List Char), '%' ∉ l → pctScan f l = l := by
  intro f
  induction f with
  | zero => intro l h; rfl
  | succ f ih =>
      intro l h
      cases l with
      | nil => rfl
      | cons c t =>
          rw [pctScan]
          simp only [tryPctMatch_none h]
          rw [ih t (fun hm => h (List.mem_cons_of_mem c hm))]

theorem not_mem_renderC {e : AExp} {c : Char} (hc : dispChar c = false) : c ∉ renderC e := by
  intro hm
  have h2 := List.all_eq_true.mp (renderC_disp e) c hm
  rw [hc] at h2
  cases h2

theorem replCh_append (c : Char) (r : List Char) :
    ∀ l1 l2 : List Char, replCh c r (l1 ++ l2) = replCh c r l1 ++ replCh c r l2 := by
  intro l1 l2
  induction l1 with
  | nil => rfl
  | cons d t ih => rw [List.cons_append, replCh, replCh, ih, List.append_assoc]

theorem normOps_append (l1 l2 : List Char) :
    normOps (l1 ++ l2) = normOps l1 ++ normOps l2 := by
  rw [normOps, normOps, normOps, replCh_append, replCh_append, replCh_append]

theorem normOps_cons (d : Char) (t : List Char) : normOps (d :: t) = normOps [d] ++ normOps t := by
  rw [show d :: t = [d] ++ t from rfl, normOps_append]

theorem normOps_id_of_dig {l : List Char} (h : l.all isDig = true) : normOps l = l := by
  have hmem := List.all_eq_true.mp h
  rw [normOps,
    replCh_not_mem _ _ _ (fun hm => absurd (hmem _ hm) (by decide)),
    replCh_not_mem _ _ _ (fun hm => absurd (hmem _ hm) (by decide)),
    replCh_not_mem _ _ _ (fun hm => absurd (hmem _ hm) (by decide))]

theorem normOps_wrapIf (b : Bool) (l : List Char) :
    normOps (wrapIf b l) = wrapIf b (normOps l) := by
  cases b
  · rw [wrapIf_false, wrapIf_false]
  · rw [wrapIf_true, wrapIf_true, normOps_cons, normOps_append]
    rfl

theorem normOps_renderC : ∀ e : AExp, normOps (renderC e) = renderAsc e := by
  intro e
  induction e with
  | lit n =>
      rw [renderC, renderAsc]
      exact normOps_id_of_dig (natChars_all_dig n)
  | dec n f k =>
      rw [renderC, renderAsc, normOps_append, normOps_cons,
        normOps_id_of_dig (natChars_all_dig n),
        normOps_id_of_dig (padZeros_all_dig k _ (natChars_all_dig f))]
      rfl
  | add a b iha ihb =>
      rw [renderC, renderAsc, normOps_append, normOps_cons, normOps_wrapIf, normOps_wrapIf,
        iha, ihb]
      rfl
  | sub a b iha ihb =>
      rw [renderC, renderAsc, normOps_append, normOps_cons, normOps_wrapIf, normOps_wrapIf,
        iha, ihb]
      rfl
  | mul a b iha ihb =>
      rw [renderC, renderAsc, normOps_append, normOps_cons, normOps_wrapIf, normOps_wrapIf,
        iha, ihb]
      rfl
  | div a b iha ihb =>
      rw [renderC, renderAsc, normOps_append, normOps_cons, normOps_wrapIf, normOps_wrapIf,
        iha, ihb]
      rfl

theorem preprocess_render (e : AExp) : preprocess (render e) = renderAsc e := by
  simp only [preprocess, render]
  rw [jsTrim_id (fun c hc => disp_not_ws (List.all_eq_true.mp (renderC_disp e) c hc)),
    powScan_id _ _ (not_mem_renderC (by decide)),
    pctScan_id _ _ (not_mem_renderC (by decide)),
    normOps_renderC]

theorem evalExpr_render (e : AExp) (q : ℚ) (hwf : e.wf = true) (hq : denote e = some q) :
    evaluateExpression (render e) = .ok (.finite q) := by
  simp only [evaluateExpression, preprocess_render, safeEval_render e q hwf hq]
  rfl

/-- C3: for every balanced, well-formed expression built from finite decimal
literals, the display operators + − × ÷ and parentheses (modelled by the
abstract syntax AExp, rendered through `render` with parentheses exactly
where precedence requires), evaluateExpression returns the value of standard
infix arithmetic with conventional precedence as given by `denote`; in
particular evaluateExpression "2+3×4" = 14 and evaluateExpression "(2+3)×4"
= 20. -/
theorem claimC3 :
    (∀ (e : AExp) (q : ℚ), e.wf = true → denote e = some q →
      evaluateExpression (render e) = .ok (.finite q))
    ∧ evaluateExpression "2+3×4" = .ok (.finite 14)
    ∧ evaluateExpression "(2+3)×4" = .ok (.finite 20) :=
  ⟨fun e q hwf hq => evalExpr_render e q hwf hq, by decide, by decide⟩

theorem claimC3_witness :
    (AExp.add (.lit 2) (.mul (.lit 3) (.lit 4))).wf = true
    ∧ denote (AExp.add (.lit 2) (.mul (.lit 3) (.lit 4))) = some 14
    ∧ evaluateExpression (render (AExp.add (.lit 2) (.mul (.lit 3) (.lit 4))))
        = .ok (.finite 14) := by
  have h1 : (AExp.add (.lit 2) (.mul (.lit 3) (.lit 4))).wf = true := by decide
  have h2 : denote (AExp.add (.lit 2) (.mul (.lit 3) (.lit 4))) = some 14 := by
    simp [denote]
    norm_num
  exact ⟨h1, h2, claimC3.1 _ 14 h1 h2⟩

theorem takeWhile_all_eq {p : Char → Bool} {l : List Char} (h : l.all p = true) :
    l.takeWhile p = l := by
  have h2 := all_takeWhile_append l [] h
  rw [List.append_nil, List.takeWhile_nil, List.append_nil] at h2
  exact h2

theorem dropWhile_all_eq {p : Char → Bool} {l : List Char} (h : l.all p = true) :
    l.dropWhile p = [] := by
  have h2 := all_dropWhile_append l [] h
  rw [List.append_nil, List.dropWhile_nil] at h2
  exact h2

theorem dropWhile_head_not {p : Char → Bool} :
    ∀ {l : List Char} {c : Char} {t : List Char}, l.dropWhile p = c :: t → p c = false := by
  intro l
  induction l with
  | nil => intro c t h; cases h
  | cons d u ih =>
      intro c t h
      rw [List.dropWhile_cons] at h
      by_cases hd : p d = true
      · rw [if_pos hd] at h
        exact ih h
      · rw [if_neg hd] at h
        injection h with h1 h2
        rw [← h1]
        cases hpd : p d
        · rfl
        · exact absurd hpd hd

theorem foldl_rep0_mul : ∀ (t a : ℕ),
    List.foldl (fun a c => 10 * a + dval c) a (List.replicate t '0') = a * 10 ^ t := by
  intro t
  induction t with
  | zero => intro a; rw [pow_zero, Nat.mul_one]; rfl
  | succ t ih =>
      intro a
      rw [List.replicate_succ, List.foldl_cons, ih]
      show (10 * a + 0) * 10 ^ t = a * 10 ^ (t + 1)
      ring

theorem charsToNat_append_zeros (l : List Char) (t : ℕ) :
    charsToNat (l ++ List.replicate t '0') = charsToNat l * 10 ^ t := by
  rw [charsToNat, charsToNat, List.foldl_append, foldl_rep0_mul]

theorem dropTrailZeros_spec (l : List Char) :
    ∃ t : ℕ, l = dropTrailZeros l ++ List.replicate t '0' := by
  have h1 : ∀ c ∈ (l.reverse.takeWhile (fun c => c = '0')).reverse, c = '0' := by
    intro c hc
    rw [List.mem_reverse] at hc
    have h3 := List.mem_takeWhile_imp (p := fun c => decide (c = '0')) hc
    exact of_decide_eq_true h3
  refine ⟨(l.reverse.takeWhile (fun c => c = '0')).reverse.length, ?_⟩
  have h2 := List.eq_replicate_of_mem h1
  rw [dropTrailZeros]
  conv_lhs => rw [← List.reverse_reverse l, ← List.takeWhile_append_dropWhile
    (p := fun c => decide (c = '0')) (l := l.reverse), List.reverse_append]
  exact congrArg
    (fun z => (List.dropWhile (fun c => decide (c = '0')) l.reverse).reverse ++ z) h2

theorem dropTrailZeros_all_dig {l : List Char} (h : l.all isDig = true) :
    (dropTrailZeros l).all isDig = true := by
  obtain ⟨t, ht⟩ := dropTrailZeros_spec l
  rw [ht, List.all_append, Bool.and_eq_true] at h
  exact h.1

theorem dropTrailZeros_last {l : List Char} {c : Char} {t2 : List Char}
    (h : (dropTrailZeros l).reverse = c :: t2) : ¬ c = '0' := by
  rw [dropTrailZeros, List.reverse_reverse] at h
  have h2 := dropWhile_head_not h
  simpa using h2

theorem parseAfterSign_dec (sgn : Int) (ip fp : List Char) (hip : ip ≠ [])
    (hipd : ip.all isDig = true) (hfpd : fp.all isDig = true) :
    parseAfterSign sgn (ip ++ '.' :: fp)
      = some (mkQ (sgn * ((charsToNat ip * 10 ^ fp.length + charsToNat fp : ℕ) : Int))
          (10 ^ fp.length)) := by
  have hdw : (ip ++ '.' :: fp).dropWhile isDig = '.' :: fp := by
    rw [all_dropWhile_append _ _ hipd, List.dropWhile_cons,
      if_neg (by decide : ¬ isDig '.' = true)]
  have htw : (ip ++ '.' :: fp).takeWhile isDig = ip := by
    rw [all_takeWhile_append _ _ hipd, List.takeWhile_cons,
      if_neg (by decide : ¬ isDig '.' = true), List.append_nil]
  simp only [parseAfterSign, hdw, htw]
  rw [if_neg (fun hb => hip hb.1), takeWhile_all_eq hfpd, dropWhile_all_eq hfpd]

theorem parseAfterSign_int (sgn : Int) (ip : List Char) (hip : ip ≠ [])
    (hipd : ip.all isDig = true) :
    parseAfterSign sgn ip = some (mkQ (sgn * (charsToNat ip : ℕ)) 1) := by
  have hdw : ip.dropWhile isDig = [] := dropWhile_all_eq hipd
  have htw : ip.takeWhile isDig = ip := takeWhile_all_eq hipd
  simp only [parseAfterSign, hdw, htw]
  rw [if_neg hip]
  rw [show charsToNat ([] : List Char) = 0 from rfl]
  norm_num

theorem qParseFloat_pos (l : List Char) (hm : ∀ t, l ≠ '-' :: t) (hp : ∀ t, l ≠ '+' :: t) :
    qParseFloat ⟨l⟩ = parseAfterSign 1 l := by
  rw [qParseFloat]
  split
  · rename_i t heq
    exact absurd heq (hm t)
  · rename_i t heq
    exact absurd heq (hp t)
  · rfl

theorem qParseFloat_neg (t : List Char) : qParseFloat ⟨'-' :: t⟩ = parseAfterSign (-1) t := rfl

theorem mkQ_den_dvd (n : Int) (d : Nat) (hd : d ≠ 0) : (mkQ n d).den ∣ d := by
  have h1 : mkQ n d = Rat.divInt n (d : Int) := by
    rw [mkQ_eq, Rat.divInt_eq_div]
    norm_num
  rw [h1]
  have h2 := Rat.den_dvd n (d : Int)
  exact_mod_cast h2

theorem roundScaledAbs_den_dvd (r : ℚ) (h : r.den ∣ 10 ^ 12) :
    roundScaledAbs r 12 = r.num.natAbs * (10 ^ 12 / r.den) := by
  obtain ⟨k, hk⟩ := h
  have hd : 0 < r.den := r.pos
  rw [roundScaledAbs, hk, Nat.mul_div_cancel_left k hd]
  have h1 : 2 * (r.num.natAbs * (r.den * k)) + r.den = r.den * (2 * (r.num.natAbs * k) + 1) := by
    ring
  have h2 : 2 * r.den = r.den * 2 := by ring
  rw [h1, h2, Nat.mul_div_mul_left _ _ hd]
  omega

theorem sign_mul_natAbs (r : ℚ) :
    ((if r < 0 then -1 else 1) * (r.num.natAbs : Int)) = r.num := by
  by_cases hneg : r < 0
  · rw [if_pos hneg]
    have h0 : ¬ (0 ≤ r) := not_le.mpr hneg
    rw [← Rat.num_nonneg] at h0
    omega
  · rw [if_neg hneg]
    have h1 : 0 ≤ r.num := by
      rw [Rat.num_nonneg]
      exact le_of_not_lt hneg
    omega

theorem round12_fix (r : ℚ) (h : r.den ∣ 10 ^ 12) : round12 r = r := by
  obtain ⟨k, hk⟩ := h
  have hd : 0 < r.den := r.pos
  have hk0 : k ≠ 0 := by
    intro hz
    rw [hz, Nat.mul_zero] at hk
    exact absurd hk (by norm_num)
  rw [round12, roundScaledAbs_den_dvd r ⟨k, hk⟩, mkQ_eq]
  have hkq : (10 ^ 12 / r.den) = k := by rw [hk, Nat.mul_div_cancel_left k hd]
  rw [hkq]
  have hnum : ((if r < 0 then (-1 : Int) else 1) * ((r.num.natAbs * k : ℕ) : ℤ))
      = r.num * (k : ℤ) := by
    rw [Nat.cast_mul, ← mul_assoc, sign_mul_natAbs]
  rw [hnum]
  have hden0 : (r.den : ℚ) ≠ 0 := Nat.cast_ne_zero.mpr (by omega)
  have hkq0 : (k : ℚ) ≠ 0 := Nat.cast_ne_zero.mpr hk0
  have hdenq : ((10 ^ 12 : ℕ) : ℚ) = (r.den : ℚ) * (k : ℚ) := by
    rw [hk]
    push_cast
    ring
  rw [hdenq, Int.cast_mul]
  have hck : (((k : ℕ) : ℤ) : ℚ) = ((k : ℕ) : ℚ) := by push_cast; ring
  rw [hck]
  have hrden : (r.num : ℚ) = r * (r.den : ℚ) := (div_eq_iff hden0).mp (Rat.num_div_den r)
  rw [div_eq_iff (mul_ne_zero hden0 hkq0), hrden]
  ring

theorem round12_zero : round12 0 = 0 := by decide

theorem round12_den (q : ℚ) : (round12 q).den ∣ 10 ^ 12 :=
  mkQ_den_dvd _ _ (by norm_num)

theorem contains_true_mem {l : List Char} {a : Char} (h : l.contains a = true) : a ∈ l :=
  List.elem_iff.mp h

theorem mem_contains_true {l : List Char} {a : Char} (h : a ∈ l) : l.contains a = true :=
  List.elem_iff.mpr h

theorem qParseFloat_jsToFixed (q : ℚ) :
    qParseFloat (jsToFixed 12 q) = some (round12 q) := by
  simp only [jsToFixed]
  rw [if_neg (by decide : ¬ (12 : ℕ) = 0)]
  set n := roundScaledAbs q 12 with hn
  have hPlen : (padZeros 12 (natChars (n % 10 ^ 12))).length = 12 :=
    padZeros_len 12 _ (natChars_len_le _ 12 (Nat.mod_lt _ (by norm_num)) (by norm_num))
  have hPdig : (padZeros 12 (natChars (n % 10 ^ 12))).all isDig = true :=
    padZeros_all_dig 12 _ (natChars_all_dig _)
  have hval : parseAfterSign 1 (natChars (n / 10 ^ 12)
        ++ '.' :: padZeros 12 (natChars (n % 10 ^ 12)))
      = some (mkQ ((1 : ℤ) * (n : ℤ)) (10 ^ 12)) := by
    rw [parseAfterSign_dec 1 _ _ (natChars_ne_nil _) (natChars_all_dig _) hPdig,
      hPlen, charsToNat_natChars, charsToNat_padZeros, charsToNat_natChars]
    have hdm : n / 10 ^ 12 * 10 ^ 12 + n % 10 ^ 12 = n := by omega
    rw [hdm]
  have hvalm : parseAfterSign (-1) (natChars (n / 10 ^ 12)
        ++ '.' :: padZeros 12 (natChars (n % 10 ^ 12)))
      = some (mkQ ((-1 : ℤ) * (n : ℤ)) (10 ^ 12)) := by
    rw [parseAfterSign_dec (-1) _ _ (natChars_ne_nil _) (natChars_all_dig _) hPdig,
      hPlen, charsToNat_natChars, charsToNat_padZeros, charsToNat_natChars]
    have hdm : n / 10 ^ 12 * 10 ^ 12 + n % 10 ^ 12 = n := by omega
    rw [hdm]
  by_cases hq : q < 0
  · rw [if_pos hq, round12, if_pos hq, ← hn]
    rw [show (['-'] ++ natChars (n / 10 ^ 12)
        ++ '.' :: padZeros 12 (natChars (n % 10 ^ 12)))
      = '-' :: (natChars (n / 10 ^ 12) ++ '.' :: padZeros 12 (natChars (n % 10 ^ 12))) from rfl]
    rw [qParseFloat_neg, hvalm]
  · rw [if_neg hq, round12, if_neg hq, ← hn, List.nil_append]
    obtain ⟨c, t, hct⟩ : ∃ c t, natChars (n / 10 ^ 12) = c :: t := by
      cases hnc : natChars (n / 10 ^ 12) with
      | nil => exact absurd hnc (natChars_ne_nil _)
      | cons c t => exact ⟨c, t, rfl⟩
    have hcd : isDig c = true := by
      have hall := natChars_all_dig (n / 10 ^ 12)
      rw [hct, List.all_cons, Bool.and_eq_true] at hall
      exact hall.1
    rw [qParseFloat_pos _
      (by
        intro t2 he
        rw [hct, List.cons_append] at he
        injection he with h1 h2
        exact isDig_ne hcd (by decide) h1)
      (by
        intro t2 he
        rw [hct, List.cons_append] at he
        injection he with h1 h2
        exact isDig_ne hcd (by decide) h1)]
    rw [hval]

theorem mkQ_shift (s : ℤ) (D F L t : ℕ) (h12 : L + t = 12) :
    mkQ (s * ((D * 10 ^ L + F : ℕ) : ℤ)) (10 ^ L)
      = mkQ (s * ((D * 10 ^ 12 + F * 10 ^ t : ℕ) : ℤ)) (10 ^ 12) := by
  rw [mkQ_eq, mkQ_eq, div_eq_div_iff (by positivity) (by positivity)]
  push_cast
  rw [show (1000000000000 : ℚ) = 10 ^ (L + t) from by rw [h12]; norm_num]
  ring

theorem mkQ_unshift (s : ℤ) (D : ℕ) :
    mkQ (s * (D : ℤ)) 1 = mkQ (s * ((D * 10 ^ 12 : ℕ) : ℤ)) (10 ^ 12) := by
  rw [mkQ_eq, mkQ_eq, div_eq_div_iff (by positivity) (by positivity)]
  push_cast
  ring

theorem jsNumToString_parse (r : ℚ) (h : r.den ∣ 10 ^ 12) :
    qParseFloat (jsNumToString r) = some r := by
  by_cases hr0 : r = 0
  · subst hr0
    decide
  · simp only [jsNumToString]
    rw [if_neg hr0]
    set sc := r.num.natAbs * (10 ^ 12 / r.den) with hsc
    set fr := dropTrailZeros (padZeros 12 (natChars (sc % 10 ^ 12))) with hfr
    have h1 := round12_fix r h
    rw [round12, roundScaledAbs_den_dvd r h] at h1
    obtain ⟨t, ht⟩ := dropTrailZeros_spec (padZeros 12 (natChars (sc % 10 ^ 12)))
    have hM : charsToNat fr * 10 ^ t = sc % 10 ^ 12 := by
      rw [← charsToNat_append_zeros, hfr, ← ht, charsToNat_padZeros, charsToNat_natChars]
    have hPlen : (padZeros 12 (natChars (sc % 10 ^ 12))).length = 12 :=
      padZeros_len 12 _ (natChars_len_le _ 12 (Nat.mod_lt _ (by norm_num)) (by norm_num))
    have hLen : fr.length + t = 12 := by
      have := congrArg List.length ht
      rw [List.length_append, List.length_replicate, hPlen] at this
      rw [hfr]
      omega
    have hfrdig : fr.all isDig = true :=
      dropTrailZeros_all_dig (padZeros_all_dig 12 _ (natChars_all_dig _))
    have hdm : sc / 10 ^ 12 * 10 ^ 12 + sc % 10 ^ 12 = sc := by omega
    obtain ⟨c, t1, hct⟩ : ∃ c t1, natChars (sc / 10 ^ 12) = c :: t1 := by
      cases hnc : natChars (sc / 10 ^ 12) with
      | nil => exact absurd hnc (natChars_ne_nil _)
      | cons c t1 => exact ⟨c, t1, rfl⟩
    have hcd : isDig c = true := by
      have hall := natChars_all_dig (sc / 10 ^ 12)
      rw [hct, List.all_cons, Bool.and_eq_true] at hall
      exact hall.1
    by_cases hfr0 : fr = []
    · rw [if_pos hfr0, List.append_nil]
      have hMzero : sc % 10 ^ 12 = 0 := by
        rw [hfr0] at hM
        rw [show charsToNat ([] : List Char) = 0 from rfl] at hM
        omega
      have hscD : sc = sc / 10 ^ 12 * 10 ^ 12 := by omega
      by_cases hq : r < 0
      · rw [if_pos hq]
        rw [show ['-'] ++ natChars (sc / 10 ^ 12) = '-' :: natChars (sc / 10 ^ 12) from rfl,
          qParseFloat_neg,
          parseAfterSign_int (-1) _ (natChars_ne_nil _) (natChars_all_dig _),
          charsToNat_natChars]
        rw [if_pos hq] at h1
        rw [← h1, mkQ_unshift, ← hscD]
      · rw [if_neg hq, List.nil_append]
        rw [qParseFloat_pos _
          (by
            intro t2 he
            rw [hct] at he
            injection he with hh1 hh2
            exact isDig_ne hcd (by decide) hh1)
          (by
            intro t2 he
            rw [hct] at he
            injection he with hh1 hh2
            exact isDig_ne hcd (by decide) hh1)]
        rw [parseAfterSign_int 1 _ (natChars_ne_nil _) (natChars_all_dig _),
          charsToNat_natChars]
        rw [if_neg hq] at h1
        rw [← h1, mkQ_unshift, ← hscD]
    · rw [if_neg hfr0]
      have hvq : mkQ ((1 : ℤ) * ((charsToNat (natChars (sc / 10 ^ 12)) * 10 ^ fr.length
            + charsToNat fr : ℕ) : ℤ)) (10 ^ fr.length)
          = mkQ ((1 : ℤ) * (sc : ℤ)) (10 ^ 12) := by
        rw [charsToNat_natChars, mkQ_shift 1 _ _ _ t hLen, hM, hdm]
      have hvqm : mkQ ((-1 : ℤ) * ((charsToNat (natChars (sc / 10 ^ 12)) * 10 ^ fr.length
            + charsToNat fr : ℕ) : ℤ)) (10 ^ fr.length)
          = mkQ ((-1 : ℤ) * (sc : ℤ)) (10 ^ 12) := by
        rw [charsToNat_natChars, mkQ_shift (-1) _ _ _ t hLen, hM, hdm]
      by_cases hq : r < 0
      · rw [if_pos hq]
        rw [show ['-'] ++ natChars (sc / 10 ^ 12) ++ '.' :: fr
          = '-' :: (natChars (sc / 10 ^ 12) ++ '.' :: fr) from rfl, qParseFloat_neg]
        rw [parseAfterSign_dec (-1) _ _ (natChars_ne_nil _) (natChars_all_dig _) hfrdig, hvqm]
        rw [if_pos hq] at h1
        rw [h1]
      · rw [if_neg hq, List.nil_append]
        rw [qParseFloat_pos _
          (by
            intro t2 he
            rw [hct, List.cons_append] at he
            injection he with hh1 hh2
            exact isDig_ne hcd (by decide) hh1)
          (by
            intro t2 he
            rw [hct, List.cons_append] at he
            injection he with hh1 hh2
            exact isDig_ne hcd (by decide) hh1)]
        rw [parseAfterSign_dec 1 _ _ (natChars_ne_nil _) (natChars_all_dig _) hfrdig, hvq]
        rw [if_neg hq] at h1
        rw [h1]

theorem stripDotZeros_of_last {l : List Char} {c0 : Char} {t0 : List Char}
    (hrev : l.reverse = c0 :: t0) (h0 : ¬ c0 = '0') : stripDotZeros l = l := by
  rw [stripDotZeros]
  split
  · rename_i t heq
    rw [hrev] at heq
    injection heq with hh1 hh2
    exact absurd hh1 h0
  · rfl

theorem not_dot_mem_sign (q : ℚ) : '.' ∉ (if q < 0 then ['-'] else []) := by
  by_cases hq : q < 0
  · rw [if_pos hq]
    intro hm
    rw [List.mem_singleton] at hm
    exact absurd hm (by decide)
  · rw [if_neg hq]
    exact List.not_mem_nil '.'

theorem not_dot_mem_dig {l : List Char} (h : l.all isDig = true) : '.' ∉ l := by
  intro hm
  exact absurd (List.all_eq_true.mp h '.' hm) (by decide)

theorem stripDotZeros_jsNum (r : ℚ)
    (hcc : (jsNumToString r).data.contains '.' = true) :
    stripDotZeros (jsNumToString r).data = (jsNumToString r).data := by
  by_cases hr0 : r = 0
  · rw [hr0] at hcc
    exact absurd hcc (by decide)
  · simp only [jsNumToString, if_neg hr0] at hcc ⊢
    set sc := r.num.natAbs * (10 ^ 12 / r.den) with hsc
    set fr := dropTrailZeros (padZeros 12 (natChars (sc % 10 ^ 12))) with hfr
    by_cases hfr0 : fr = []
    · exfalso
      rw [if_pos hfr0, List.append_nil] at hcc
      have hm := contains_true_mem hcc
      rcases List.mem_append.mp hm with hm1 | hm1
      · exact not_dot_mem_sign r hm1
      · exact not_dot_mem_dig (natChars_all_dig _) hm1
    · rw [if_neg hfr0] at hcc ⊢
      obtain ⟨c0, t0, hrev⟩ : ∃ c0 t0, fr.reverse = c0 :: t0 := by
        cases hrv : fr.reverse with
        | nil =>
            exfalso
            exact hfr0 (by
              have := congrArg List.reverse hrv
              rwa [List.reverse_reverse] at this)
        | cons c0 t0 => exact ⟨c0, t0, rfl⟩
      have hc0 : ¬ c0 = '0' := dropTrailZeros_last (hfr ▸ hrev)
      have hlrev : ((if r < 0 then ['-'] else []) ++ natChars (sc / 10 ^ 12)
            ++ '.' :: fr).reverse
          = c0 :: ((t0 ++ ['.'])
            ++ ((if r < 0 then ['-'] else []) ++ natChars (sc / 10 ^ 12)).reverse) := by
        rw [List.reverse_append, List.reverse_cons, List.append_assoc, hrev,
          List.cons_append, List.append_assoc]
      exact stripDotZeros_of_last hlrev hc0

theorem formatNumber_plain (q : ℚ)
    (hc : ¬ (qAbs q > (10 : ℚ) ^ 15 ∨ (qAbs q < mkQ 1 (10 ^ 6) ∧ q ≠ 0))) :
    formatNumber (.finite q) = jsNumToString (round12 q) := by
  simp only [formatNumber]
  rw [if_neg hc, qParseFloat_jsToFixed, Option.getD_some]
  cases hcc : (jsNumToString (round12 q)).data.contains '.'
  · rw [if_neg (by decide : ¬ false = true)]
  · rw [if_pos (rfl : true = true)]
    exact congrArg String.mk (stripDotZeros_jsNum (round12 q) hcc)

theorem abs_round12 (q : ℚ) : |round12 q| = ((roundScaledAbs q 12 : ℕ) : ℚ) / 10 ^ 12 := by
  rw [round12, mkQ_eq, abs_div]
  have h2 : |(((10 ^ 12 : ℕ) : ℚ))| = ((10 ^ 12 : ℕ) : ℚ) := abs_of_nonneg (by positivity)
  rw [h2]
  have h3 : ((10 ^ 12 : ℕ) : ℚ) = (10 : ℚ) ^ 12 := by push_cast; ring
  rw [h3]
  congr 1
  by_cases hq : q < 0
  · rw [if_pos hq]
    push_cast
    rw [neg_one_mul, abs_neg, abs_of_nonneg (by positivity)]
  · rw [if_neg hq]
    push_cast
    rw [one_mul, abs_of_nonneg (by positivity)]

theorem natAbs_le_of_abs_le {q : ℚ} {M : ℕ} (h : |q| ≤ (M : ℚ)) :
    q.num.natAbs ≤ M * q.den := by
  have hden : (0 : ℚ) < (q.den : ℚ) := by
    exact_mod_cast q.pos
  have habs : |q| = |(q.num : ℚ)| / (q.den : ℚ) := by
    conv_lhs => rw [← Rat.num_div_den q]
    rw [abs_div, abs_of_nonneg (le_of_lt hden)]
  rw [habs, div_le_iff hden] at h
  have h2 : ((q.num.natAbs : ℤ) : ℚ) ≤ (M : ℚ) * (q.den : ℚ) := by
    rw [Int.cast_natAbs]
    exact_mod_cast h
  exact_mod_cast h2

theorem den_le_of_le_abs {q : ℚ} (h : 1 / (10 : ℚ) ^ 6 ≤ |q|) :
    q.den ≤ 10 ^ 6 * q.num.natAbs := by
  have hden : (0 : ℚ) < (q.den : ℚ) := by
    exact_mod_cast q.pos
  have habs : |q| = |(q.num : ℚ)| / (q.den : ℚ) := by
    conv_lhs => rw [← Rat.num_div_den q]
    rw [abs_div, abs_of_nonneg (le_of_lt hden)]
  rw [habs, div_le_div_iff (by positivity) hden] at h
  have h3 : ((q.num.natAbs : ℕ) : ℚ) = |(q.num : ℚ)| := by
    rw [Int.cast_natAbs, Int.cast_abs]
  have h2 : (q.den : ℚ) ≤ (10 : ℚ) ^ 6 * ((q.num.natAbs : ℕ) : ℚ) := by
    rw [h3]
    calc (q.den : ℚ) = 1 * q.den := (one_mul _).symm
      _ ≤ |(q.num : ℚ)| * (10 : ℚ) ^ 6 := h
      _ = (10 : ℚ) ^ 6 * |(q.num : ℚ)| := mul_comm _ _
  exact_mod_cast h2

theorem round12_abs_le {q : ℚ} (h : |q| ≤ (10 : ℚ) ^ 15) : |round12 q| ≤ (10 : ℚ) ^ 15 := by
  have hA : q.num.natAbs ≤ 10 ^ 15 * q.den := by
    apply natAbs_le_of_abs_le
    rw [show (((10 ^ 15 : ℕ) : ℚ)) = (10 : ℚ) ^ 15 from by push_cast; ring]
    exact h
  have hdpos : 0 < q.den := q.pos
  have hR : roundScaledAbs q 12 ≤ 10 ^ 27 := by
    rw [roundScaledAbs]
    have hlt : 2 * (q.num.natAbs * 10 ^ 12) + q.den < (10 ^ 27 + 1) * (2 * q.den) := by
      nlinarith [hA, hdpos]
    have := (Nat.div_lt_iff_lt_mul (by omega : 0 < 2 * q.den)).mpr hlt
    omega
  rw [abs_round12, div_le_iff (by positivity)]
  calc ((roundScaledAbs q 12 : ℕ) : ℚ) ≤ ((10 ^ 27 : ℕ) : ℚ) := by exact_mod_cast hR
    _ = (10 : ℚ) ^ 15 * 10 ^ 12 := by push_cast; ring

theorem round12_abs_ge {q : ℚ} (h : 1 / (10 : ℚ) ^ 6 ≤ |q|) :
    1 / (10 : ℚ) ^ 6 ≤ |round12 q| := by
  have hD : q.den ≤ 10 ^ 6 * q.num.natAbs := den_le_of_le_abs h
  have hdpos : 0 < q.den := q.pos
  have hR : 10 ^ 6 ≤ roundScaledAbs q 12 := by
    rw [roundScaledAbs]
    rw [Nat.le_div_iff_mul_le (by omega : 0 < 2 * q.den)]
    nlinarith [hD, hdpos]
  rw [abs_round12, div_le_div_iff (by positivity) (by positivity)]
  calc (1 : ℚ) * 10 ^ 12 = ((10 ^ 6 : ℕ) : ℚ) * 10 ^ 6 := by push_cast; ring
    _ ≤ ((roundScaledAbs q 12 : ℕ) : ℚ) * 10 ^ 6 := by
        have hc : ((10 ^ 6 : ℕ) : ℚ) ≤ ((roundScaledAbs q 12 : ℕ) : ℚ) := by exact_mod_cast hR
        exact mul_le_mul_of_nonneg_right hc (by positivity)

theorem mkQ_one_milli : mkQ 1 (10 ^ 6) = 1 / (10 : ℚ) ^ 6 := by
  rw [mkQ_eq]
  push_cast
  ring

theorem fmt_cond_of {q : ℚ} (h1 : |q| ≤ (10 : ℚ) ^ 15)
    (h2 : q = 0 ∨ 1 / (10 : ℚ) ^ 6 ≤ |q|) :
    ¬ (qAbs q > (10 : ℚ) ^ 15 ∨ (qAbs q < mkQ 1 (10 ^ 6) ∧ q ≠ 0)) := by
  rw [qAbs_eq, mkQ_one_milli]
  intro hor
  rcases hor with hgt | ⟨hlt, hne⟩
  · exact absurd h1 (not_le.mpr hgt)
  · rcases h2 with rfl | hge
    · exact hne rfl
    · exact absurd hge (not_le.mpr hlt)

/-- C9 (amended): on the plain-decimal range of the formatter — magnitude at
most 1e15 and, unless the value is zero, at least 1e-6 — formatting is
idempotent: parsing the formatted string back yields a value whose formatting
is the identical string.  (The original claim over every finite value is
refuted by claimC9_cex: crossing into the exponential branch loses the
rounded-away digits.) -/
theorem claimC9 : ∀ (q : ℚ), qAbs q ≤ (10 : ℚ) ^ 15 →
    (q = 0 ∨ mkQ 1 (10 ^ 6) ≤ qAbs q) →
    ∃ q2, qParseFloat (formatNumber (.finite q)) = some q2
      ∧ formatNumber (.finite q2) = formatNumber (.finite q) := by
  intro q h1 h2
  rw [qAbs_eq] at h1
  rw [mkQ_one_milli, qAbs_eq] at h2
  have hcq := fmt_cond_of h1 h2
  have hb1 : |round12 q| ≤ (10 : ℚ) ^ 15 := round12_abs_le h1
  have hb2 : round12 q = 0 ∨ 1 / (10 : ℚ) ^ 6 ≤ |round12 q| := by
    rcases h2 with rfl | hge
    · left
      exact round12_zero
    · right
      exact round12_abs_ge hge
  have hcr := fmt_cond_of hb1 hb2
  refine ⟨round12 q, ?_, ?_⟩
  · rw [formatNumber_plain q hcq, jsNumToString_parse _ (round12_den q)]
  · rw [formatNumber_plain _ hcr, formatNumber_plain q hcq, round12_fix _ (round12_den q)]

theorem claimC9_witness :
    qAbs (mkQ 105 10) ≤ (10 : ℚ) ^ 15
    ∧ (mkQ 105 10 = 0 ∨ mkQ 1 (10 ^ 6) ≤ qAbs (mkQ 105 10))
    ∧ ∃ q2, qParseFloat (formatNumber (.finite (mkQ 105 10))) = some q2
        ∧ formatNumber (.finite q2) = formatNumber (.finite (mkQ 105 10)) :=
  ⟨by decide, Or.inr (by decide),
    claimC9 (mkQ 105 10) (by decide) (Or.inr (by decide))⟩

theorem claimC9_cex :
    (qParseFloat (formatNumber (.finite (mkQ (10 ^ 15 + 100) 1)))).map
        (fun q2 => formatNumber (.finite q2))
      ≠ some (formatNumber (.finite (mkQ (10 ^ 15 + 100) 1))) := by decide
